import Mathlib

/-!
# A verification model of the `spectralint` consistency core

This file gives a shallow embedding, in Lean 4, of the cross-document
consistency core of the `spectralint` documentation linter:

* the identifier normalizer (`src/checkers/utils.rs`, `normalize`),
* the naming-inconsistency checker (`src/checkers/naming_inconsistency.rs`),
* the enum-drift checker (`src/checkers/enum_drift.rs`),
* the inline-suppression resolver (`src/engine/suppress.rs`), and
* the engine's merge / sort / dedup step (`src/engine/mod.rs`, `run`).

Modelling conventions, used throughout:

* Rust `String` / `&str` become Lean `String` (a list of Unicode scalar
  values).  Rust's byte-wise UTF-8 ordering on `str` coincides with the
  scalar-value lexicographic ordering, which is the ordering implemented
  here (`strCmp`).
* `PathBuf` values are modelled as plain strings; the engine's ordering of
  paths is modelled as string ordering (the paths appearing in concrete
  corpora below are flat file names, for which both agree).
* Character classification (`is_uppercase`, `is_lowercase`,
  `is_whitespace`) is modelled with Lean's ASCII classifiers; the
  identifiers being analysed are ASCII.  `to_ascii_lowercase` is modelled
  by `Char.toLower`, which agrees with it on every character.
* Floating-point similarity scores (`strsim::jaro_winkler`, an `f64`) are
  modelled as exact unreduced fractions of naturals (`Frac`); thresholds
  `0.95` and `0.8` become the exact fractions `95/100` and `8/10`.
* Rust `HashMap` grouping has unspecified iteration order; the model makes
  that order an explicit parameter `ord : List String` (the sequence in
  which the map's keys are enumerated).  `HashSet` values on which only
  membership / set-equality is used are modelled as lists queried by
  membership.
* The glob machinery (`globset`, an external crate) is abstracted to the
  predicate it denotes: a scope filter is a function `String → Bool`
  (the denotation of `ScopeFilter::includes`), and the historical-file
  set of `CheckerContext` is the list of matching indices.
* Recursions that are not structural in Rust are given a fuel argument
  equal to an upper bound on the number of loop steps; the fuel is a
  termination artifact only and is always instantiated large enough.
-/

namespace SpectraLint

/-! ## Orderings on characters, lists of characters, naturals -/

/-- Three-way comparison of naturals. -/
def cmpN (a b : Nat) : Ordering :=
  if a < b then .lt else if b < a then .gt else .eq

/-- Three-way comparison of characters, by Unicode scalar value.  This is
Rust's `char` ordering, and byte-wise UTF-8 ordering of the strings built
from them. -/
def cmpC (a b : Char) : Ordering := cmpN a.val.toNat b.val.toNat

/-- Lexicographic comparison of character lists: Rust's `str` ordering. -/
def strCmp : List Char → List Char → Ordering
  | [], [] => .eq
  | [], _ :: _ => .lt
  | _ :: _, [] => .gt
  | a :: as', b :: bs' =>
    match cmpC a b with
    | .eq => strCmp as' bs'
    | o => o

/-- A lawful three-way comparison: anti-symmetric under `swap`, transitive
on `lt`, and with `eq` acting as a congruence on the left. -/
structure LawfulCmp {α : Type} (f : α → α → Ordering) : Prop where
  swap_eq : ∀ a b, f a b = (f b a).swap
  lt_trans : ∀ {a b c}, f a b = .lt → f b c = .lt → f a c = .lt
  eq_left : ∀ {a b c}, f a b = .eq → f a c = f b c

theorem cmpN_lawful : LawfulCmp cmpN := by
  constructor
  · intro a b
    unfold cmpN Ordering.swap
    rcases Nat.lt_trichotomy a b with h | h | h
    · simp [h, Nat.lt_asymm h]
    · simp [h, Nat.lt_irrefl]
    · simp [h, Nat.lt_asymm h]
  · intro a b c hab hbc
    unfold cmpN at *
    split at hab
    · split at hbc
      · simp [cmpN, Nat.lt_trans ‹a < b› ‹b < c›]
      · simp_all
    · simp_all
  · intro a b c hab
    unfold cmpN at *
    have hb : a = b := by
      by_cases h1 : a < b <;> by_cases h2 : b < a <;> simp_all [Nat.le_antisymm]
      omega
    subst hb; rfl

theorem cmpN_eq_iff {a b : Nat} : cmpN a b = .eq ↔ a = b := by
  constructor
  · intro h
    unfold cmpN at h
    by_cases h1 : a < b <;> by_cases h2 : b < a <;> simp_all
    omega
  · rintro rfl; simp [cmpN]

theorem cmpC_lawful : LawfulCmp cmpC := by
  constructor
  · intro a b; exact cmpN_lawful.swap_eq _ _
  · intro a b c h1 h2; exact cmpN_lawful.lt_trans h1 h2
  · intro a b c h; exact cmpN_lawful.eq_left h

theorem cmpC_eq_iff {a b : Char} : cmpC a b = .eq ↔ a = b := by
  unfold cmpC
  rw [cmpN_eq_iff]
  constructor
  · intro h
    exact Char.ext (UInt32.toNat.inj h)
  · rintro rfl; rfl

theorem strCmp_lawful : LawfulCmp strCmp := by
  constructor
  · intro a
    induction a with
    | nil => intro b; cases b <;> rfl
    | cons x xs ih =>
      intro b
      cases b with
      | nil => rfl
      | cons y ys =>
        simp only [strCmp]
        have hsw := cmpC_lawful.swap_eq x y
        cases h : cmpC y x with
        | lt => rw [hsw, h]; rfl
        | gt => rw [hsw, h]; rfl
        | eq => rw [hsw, h]; simpa using ih ys
  · intro a
    induction a with
    | nil =>
      intro b c hab hbc
      cases b with
      | nil => cases hab
      | cons y ys =>
        cases c with
        | nil => cases hbc
        | cons z zs => rfl
    | cons x xs ih =>
      intro b c hab hbc
      cases b with
      | nil => cases hab
      | cons y ys =>
        cases c with
        | nil => cases hbc
        | cons z zs =>
          simp only [strCmp] at *
          cases hxy : cmpC x y with
          | gt => rw [hxy] at hab; cases hab
          | lt =>
            rw [hxy] at hab
            cases hyz : cmpC y z with
            | gt => rw [hyz] at hbc; cases hbc
            | lt => rw [cmpC_lawful.lt_trans hxy hyz]
            | eq =>
              have : cmpC x z = cmpC x y := by
                have := cmpC_lawful.eq_left (a := y) (b := z) (c := x) hyz
                rw [cmpC_lawful.swap_eq x z, cmpC_lawful.swap_eq x y, this]
              rw [this, hxy]
          | eq =>
            rw [hxy] at hab
            have hxz : cmpC x z = cmpC y z := cmpC_lawful.eq_left hxy
            cases hyz : cmpC y z with
            | gt => rw [hyz] at hbc; cases hbc
            | lt => rw [hxz, hyz]
            | eq =>
              rw [hyz] at hbc
              rw [hxz, hyz]
              exact ih hab hbc
  · intro a
    induction a with
    | nil =>
      intro b c hab
      cases b with
      | nil => rfl
      | cons y ys => cases hab
    | cons x xs ih =>
      intro b c hab
      cases b with
      | nil => cases hab
      | cons y ys =>
        simp only [strCmp] at hab
        cases hxy : cmpC x y with
        | lt => rw [hxy] at hab; cases hab
        | gt => rw [hxy] at hab; cases hab
        | eq =>
          rw [hxy] at hab
          cases c with
          | nil => rfl
          | cons z zs =>
            simp only [strCmp]
            rw [cmpC_lawful.eq_left hxy, ih hab]

theorem strCmp_eq_iff : ∀ {a b : List Char}, strCmp a b = .eq ↔ a = b := by
  intro a
  induction a with
  | nil => intro b; cases b <;> simp [strCmp]
  | cons x xs ih =>
    intro b
    cases b with
    | nil => simp [strCmp]
    | cons y ys =>
      simp only [strCmp]
      cases hxy : cmpC x y with
      | lt =>
        simp only [List.cons.injEq]
        constructor
        · intro h; cases h
        · rintro ⟨rfl, rfl⟩; rw [cmpC_eq_iff.mpr rfl] at hxy; cases hxy
      | gt =>
        simp only [List.cons.injEq]
        constructor
        · intro h; cases h
        · rintro ⟨rfl, rfl⟩; rw [cmpC_eq_iff.mpr rfl] at hxy; cases hxy
      | eq =>
        have hx : x = y := cmpC_eq_iff.mp hxy
        subst hx
        simp [ih]

/-- Lexicographic composition of two comparisons preserves lawfulness. -/
theorem LawfulCmp.then {α : Type} {f g : α → α → Ordering}
    (hf : LawfulCmp f) (hg : LawfulCmp g) :
    LawfulCmp (fun a b => (f a b).then (g a b)) := by
  constructor
  · intro a b
    rw [hf.swap_eq a b, hg.swap_eq a b]
    cases f b a <;> cases g b a <;> rfl
  · intro a b c hab hbc
    simp only at *
    cases hf1 : f a b with
    | gt => rw [hf1] at hab; cases hab
    | lt =>
      cases hf2 : f b c with
      | gt => rw [hf2] at hbc; cases hbc
      | lt => rw [hf.lt_trans hf1 hf2]; rfl
      | eq =>
        have : f a c = f a b := by
          have h1 := hf.eq_left (a := b) (b := c) (c := a) hf2
          rw [hf.swap_eq a c, hf.swap_eq a b, h1]
        rw [this, hf1]; rfl
    | eq =>
      rw [hf1] at hab
      have hfac : f a c = f b c := hf.eq_left hf1
      cases hf2 : f b c with
      | gt => rw [hf2] at hbc; cases hbc
      | lt => rw [hfac, hf2]; rfl
      | eq =>
        rw [hf2] at hbc
        rw [hfac, hf2]
        simpa using hg.lt_trans hab hbc
  · intro a b c hab
    simp only at *
    cases hf1 : f a b with
    | gt => rw [hf1] at hab; cases hab
    | lt => rw [hf1] at hab; cases hab
    | eq =>
      rw [hf1] at hab
      rw [hf.eq_left hf1, hg.eq_left hab]

theorem LawfulCmp.then_eq_iff {α : Type} {f g : α → α → Ordering}
    {a b : α} :
    (f a b).then (g a b) = .eq ↔ f a b = .eq ∧ g a b = .eq := by
  cases f a b <;> cases g a b <;> simp [Ordering.then]

/-- From a lawful comparison: `eq` acts as a congruence on the right. -/
theorem LawfulCmp.eq_right {α : Type} {f : α → α → Ordering}
    (hf : LawfulCmp f) {a b c : α} (h : f b c = .eq) : f a b = f a c := by
  have h1 := hf.eq_left (a := b) (b := c) (c := a) h
  rw [hf.swap_eq a b, hf.swap_eq a c, h1]

theorem LawfulCmp.eq_swap {α : Type} {f : α → α → Ordering}
    (hf : LawfulCmp f) {a b : α} (h : f a b = .eq) : f b a = .eq := by
  rw [hf.swap_eq b a, h]
  rfl

/-! ## Stable sort and adjacent dedup

`Vec::sort_by` is a stable sort and `Vec::dedup_by` removes all but the
first of consecutive elements recognised as equal, comparing each element
against the last retained one.  A stable sort's output is uniquely
determined by the comparator, so any stable sort models `sort_by`; here a
stable insertion sort is used (an element is inserted in front of the
first element it compares `≤` to, which keeps the original relative order
of comparator-equal elements, exactly as stability demands). -/

/-- Insert `x` in front of the first element `y` with `le x y`. -/
def insertLe {α : Type} (le : α → α → Bool) (x : α) : List α → List α
  | [] => [x]
  | y :: ys => if le x y then x :: y :: ys else y :: insertLe le x ys

/-- Stable sort by a boolean comparator (models `Vec::sort_by`). -/
def sortByStable {α : Type} (le : α → α → Bool) (l : List α) : List α :=
  l.foldr (insertLe le) []

/-- Tail worker of `dedupAdj`: `prev` is the last retained element. -/
def dedupAdjGo {α : Type} (eqb : α → α → Bool) (prev : α) : List α → List α
  | [] => []
  | b :: r => if eqb b prev then dedupAdjGo eqb prev r else b :: dedupAdjGo eqb b r

/-- Remove all but the first of consecutive elements recognised as equal
(models `Vec::dedup_by`). -/
def dedupAdj {α : Type} (eqb : α → α → Bool) : List α → List α
  | [] => []
  | a :: r => a :: dedupAdjGo eqb a r

theorem mem_insertLe {α : Type} {le : α → α → Bool} {x z : α} :
    ∀ {l : List α}, z ∈ insertLe le x l ↔ z = x ∨ z ∈ l := by
  intro l
  induction l with
  | nil => simp [insertLe]
  | cons y ys ih =>
    simp only [insertLe]
    split
    · simp [or_comm, or_left_comm]
    · simp only [List.mem_cons, ih]
      tauto

theorem insertLe_pairwise {α : Type} {le : α → α → Bool}
    (htot : ∀ a b, le a b || le b a)
    (htrans : ∀ {a b c}, le a b = true → le b c = true → le a c = true)
    {x : α} :
    ∀ {l : List α}, l.Pairwise (fun a b => le a b = true) →
      (insertLe le x l).Pairwise (fun a b => le a b = true) := by
  intro l
  induction l with
  | nil => intro _; simp [insertLe]
  | cons y ys ih =>
    intro hp
    rw [List.pairwise_cons] at hp
    obtain ⟨hy, hys⟩ := hp
    simp only [insertLe]
    split
    · rename_i hxy
      rw [List.pairwise_cons]
      constructor
      · intro z hz
        rcases List.mem_cons.mp hz with rfl | hz
        · exact hxy
        · exact htrans hxy (hy z hz)
      · rw [List.pairwise_cons]; exact ⟨hy, hys⟩
    · rename_i hxy
      have hyx : le y x = true := by
        have := htot x y
        simp [hxy] at this
        exact this
      rw [List.pairwise_cons]
      constructor
      · intro z hz
        rcases mem_insertLe.mp hz with rfl | hz
        · exact hyx
        · exact hy z hz
      · exact ih hys

/-- A stable sort by a total, transitive comparator is sorted. -/
theorem sortByStable_pairwise {α : Type} {le : α → α → Bool}
    (htot : ∀ a b, le a b || le b a)
    (htrans : ∀ {a b c}, le a b = true → le b c = true → le a c = true)
    (l : List α) :
    (sortByStable le l).Pairwise (fun a b => le a b = true) := by
  induction l with
  | nil => simp [sortByStable]
  | cons x xs ih =>
    exact insertLe_pairwise htot htrans ih

theorem dedupAdjGo_strict {α : Type} {le eqb : α → α → Bool}
    (htrans : ∀ {a b c}, le a b = true → le b c = true → le a c = true)
    (heq : ∀ a b, eqb a b = (le a b && le b a)) :
    ∀ {l : List α} (p : α),
      (∀ x ∈ l, le p x = true) →
      l.Pairwise (fun a b => le a b = true) →
      (∀ y ∈ dedupAdjGo eqb p l, le p y = true ∧ eqb p y = false) ∧
        (dedupAdjGo eqb p l).Pairwise
          (fun a b => le a b = true ∧ eqb a b = false) := by
  intro l
  induction l with
  | nil => intro p _ _; simp [dedupAdjGo]
  | cons b r ih =>
    intro p hprev hp
    rw [List.pairwise_cons] at hp
    obtain ⟨hb, hr⟩ := hp
    simp only [dedupAdjGo]
    split
    · rename_i hbe
      rw [heq] at hbe
      have hbp : le b p = true ∧ le p b = true := by
        cases h1 : le b p <;> cases h2 : le p b <;> rw [h1, h2] at hbe <;> simp_all
      refine ih p ?_ hr
      intro x hx
      exact htrans hbp.2 (htrans hbp.1 (htrans (hprev b (by simp)) (hb x hx)))
    · rename_i hbe
      have hbe' : eqb b p = false := by
        cases h : eqb b p
        · rfl
        · exact absurd h hbe
      have hpb : le p b = true := hprev b (by simp)
      have hepb : eqb p b = false := by
        rw [heq]
        rw [heq] at hbe'
        cases hlbp : le b p with
        | false => simp [hlbp]
        | true =>
          exfalso
          rw [hlbp, hpb] at hbe'
          simp at hbe'
      obtain ⟨hmem, hpw⟩ := ih b hb hr
      constructor
      · intro y hy
        rcases List.mem_cons.mp hy with rfl | hy
        · exact ⟨hpb, hepb⟩
        · obtain ⟨h1, h2⟩ := hmem y hy
          refine ⟨htrans hpb h1, ?_⟩
          rw [heq]
          cases e2 : le y p with
          | false => simp [e2]
          | true =>
            exfalso
            have hbprev : le b p = true := htrans h1 e2
            rw [heq, hbprev, hpb] at hbe'
            simp at hbe'
      · rw [List.pairwise_cons]
        exact ⟨hmem, hpw⟩

/-- Adjacent dedup of a sorted list is strictly increasing: pairwise `le`
and pairwise not-equal. -/
theorem dedupAdj_strict {α : Type} {le eqb : α → α → Bool}
    (htrans : ∀ {a b c}, le a b = true → le b c = true → le a c = true)
    (heq : ∀ a b, eqb a b = (le a b && le b a))
    {l : List α} (hl : l.Pairwise (fun a b => le a b = true)) :
    (dedupAdj eqb l).Pairwise (fun a b => le a b = true ∧ eqb a b = false) := by
  cases l with
  | nil => simp [dedupAdj]
  | cons a r =>
    rw [List.pairwise_cons] at hl
    obtain ⟨ha, hr⟩ := hl
    simp only [dedupAdj]
    rw [List.pairwise_cons]
    obtain ⟨hmem, hpw⟩ := @dedupAdjGo_strict α le eqb @htrans heq r a ha hr
    exact ⟨hmem, hpw⟩

/-! ## Exact fractions (the model of `f64` similarity scores)

`strsim::jaro_winkler` computes with `f64`; all quantities involved are
small exact fractions, modelled here as unreduced numerator/denominator
pairs of naturals (the denominator is positive for every value the code
constructs).  The thresholds `0.95` / `0.8` are modelled by the exact
fractions `95/100` / `8/10`. -/

structure Frac where
  num : Nat
  den : Nat
deriving DecidableEq, Repr

/-- `a < b` on fractions with positive denominators. -/
def Frac.ltb (a b : Frac) : Bool := decide (a.num * b.den < b.num * a.den)

/-- `a ≤ b` on fractions with positive denominators. -/
def Frac.leb (a b : Frac) : Bool := decide (a.num * b.den ≤ b.num * a.den)

/-! ## `strsim::generic_jaro` / `strsim::jaro_winkler`

A direct embedding of the crate's algorithm: a forward scan over the
first string, matching each character against the closest unconsumed
equal character of the second string inside the search window, counting
matches and (index-decreasing) transpositions. -/

structure JaroState where
  consumed : List Bool
  matchCount : Nat
  transpositions : Nat
  bMatchIndex : Nat
deriving Repr

/-- First index `j` of `bl` inside `[lo, hi]` holding `c` and not yet
consumed (the inner `for (j, b_elem)` loop with `break`). -/
def jaroFindMatch (bl : List Char) (consumed : List Bool) (lo hi : Nat) (c : Char) : Option Nat :=
  (List.range bl.length).find? fun j =>
    decide (lo ≤ j) && decide (j ≤ hi) && (bl.get? j == some c) && (consumed.get? j == some false)

/-- One step of the outer loop of `generic_jaro` for `a[i] = c`. -/
def jaroStep (bl : List Char) (range : Nat) (st : JaroState) (i : Nat) (c : Char) : JaroState :=
  let lo := if range < i then i - range else 0
  let hi := min (bl.length - 1) (i + range)
  if hi < lo then st
  else
    match jaroFindMatch bl st.consumed lo hi c with
    | none => st
    | some j =>
      { consumed := st.consumed.set j true
        matchCount := st.matchCount + 1
        transpositions :=
          if j < st.bMatchIndex then st.transpositions + 1 else st.transpositions
        bMatchIndex := j }

/-- `strsim::generic_jaro` on the character sequences of two strings.
The result `(m/|a| + m/|b| + (m-t)/m) / 3` is put over the common
denominator `3·|a|·|b|·m`. -/
def genericJaro (a b : String) : Frac :=
  let al := a.toList
  let bl := b.toList
  if al.length = 0 ∧ bl.length = 0 then ⟨1, 1⟩
  else if al.length = 0 ∨ bl.length = 0 then ⟨0, 1⟩
  else if al.length = 1 ∧ bl.length = 1 then
    (if al == bl then ⟨1, 1⟩ else ⟨0, 1⟩)
  else
    let range := max al.length bl.length / 2 - 1
    let st := al.enum.foldl (fun st p => jaroStep bl range st p.1 p.2)
      ⟨List.replicate bl.length false, 0, 0, 0⟩
    if st.matchCount = 0 then ⟨0, 1⟩
    else
      ⟨st.matchCount * bl.length * st.matchCount + st.matchCount * al.length * st.matchCount
         + (st.matchCount - st.transpositions) * al.length * bl.length,
       3 * (al.length * bl.length * st.matchCount)⟩

/-- Length of the common prefix (`zip` + `take_while` in the crate). -/
def commonPrefixLen : List Char → List Char → Nat
  | a :: as', b :: bs' => if a == b then commonPrefixLen as' bs' + 1 else 0
  | _, _ => 0

/-- `strsim::jaro_winkler`: `jaro + 0.1·prefix·(1 − jaro)`, clamped to 1.
`j + p·(1−j)/10 = (10·jn + p·(jd − jn)) / (10·jd)`. -/
def jaroWinkler (a b : String) : Frac :=
  let j := genericJaro a b
  let p := commonPrefixLen a.toList b.toList
  let v : Frac := ⟨10 * j.num + p * (j.den - j.num), 10 * j.den⟩
  if v.den ≤ v.num then ⟨1, 1⟩ else v

/-! ## Number formatting -/

/-- Round `num / den` to the nearest integer, ties to even (the rounding
of Rust's `{:.0}` float formatting). -/
def roundHalfEven (num den : Nat) : Nat :=
  let q := num / den
  let r := num % den
  if 2 * r < den then q
  else if den < 2 * r then q + 1
  else if q % 2 = 0 then q else q + 1

/-- The `{:.0}` rendering of `similarity * 100.0`. -/
def fmtPercent (f : Frac) : String := Nat.repr (roundHalfEven (100 * f.num) f.den)

/-! ## String helpers (models of `str` methods used by the checkers) -/

/-- `char::is_whitespace`, restricted to the ASCII whitespace the corpus
uses (Lean's `Char.isWhitespace`). -/
def isWs (c : Char) : Bool := c.isWhitespace

/-- `str::trim`. -/
def trimStr (s : String) : String :=
  String.mk (((s.toList.dropWhile isWs).reverse.dropWhile isWs).reverse)

/-- `key.split('_').count()`: one more than the number of underscores. -/
def underscoreSegments (s : String) : Nat :=
  (s.toList.filter (· == '_')).length + 1

/-- `str::to_lowercase` (ASCII range; the two agree on ASCII input). -/
def toLowerStr (s : String) : String := String.mk (s.toList.map Char.toLower)

/-- `str::eq_ignore_ascii_case`. -/
def eqIgnoreAsciiCase (a b : String) : Bool :=
  a.toList.map Char.toLower == b.toList.map Char.toLower

/-! ## The identifier normalizer (`src/checkers/utils.rs`, `normalize`)

The Rust loop consumes whole uppercase runs at once, so it is not
structurally recursive on the character list; the model adds a fuel
argument bounding the number of loop iterations (each iteration consumes
at least one character, so `fuel = length` always suffices). -/

/-- The delimiters dropped by `normalize`. -/
def isDelim (c : Char) : Bool := c == '_' || c == '-' || c == ' '

/-- `if !current.is_empty() { parts.push(take(current)) }`. -/
def pushTok (parts : List (List Char)) (cur : List Char) : List (List Char) :=
  if cur = [] then parts else parts ++ [cur]

/-- The scan loop of `normalize`: `parts` are the finished tokens, `cur`
the token being built.  An uppercase run of length > 1 is an acronym; if
it is followed by a lowercase letter its last character starts the next
token, otherwise the whole run is one token. -/
def normalizeGo : Nat → List Char → List (List Char) → List Char → List (List Char)
  | _, [], parts, cur => pushTok parts cur
  | 0, _ :: _, parts, cur => pushTok parts cur
  | fuel + 1, c :: rest, parts, cur =>
    if isDelim c then
      normalizeGo fuel rest (pushTok parts cur) []
    else if c.isUpper then
      let run := c :: rest.takeWhile Char.isUpper
      let restTail := rest.dropWhile Char.isUpper
      if 1 < run.length then
        if restTail.head?.any Char.isLower then
          normalizeGo fuel restTail
            (pushTok parts cur ++ [run.dropLast.map Char.toLower])
            [run.getLast!.toLower]
        else
          normalizeGo fuel restTail (pushTok parts cur ++ [run.map Char.toLower]) []
      else
        normalizeGo fuel rest (pushTok parts cur) [c.toLower]
    else
      normalizeGo fuel rest parts (cur ++ [c.toLower])

/-- `parts.flatten("_")`. -/
def joinUnderscore : List (List Char) → List Char
  | [] => []
  | [t] => t
  | t :: rest => t ++ '_' :: joinUnderscore rest

/-- `normalize`: split on `_`, `-`, space and case boundaries
(acronym-aware), lowercase, join with `_`. -/
def normalize (name : String) : String :=
  String.mk (joinUnderscore (normalizeGo name.toList.length name.toList [] []))

/-! ## The literal pattern matchers of the naming checker

Hand-rolled recognisers for the three anchored regular expressions of
`naming_inconsistency.rs`.  Each regex is deterministic except for the
bounded repetition `\d{1,2}` of the date pattern, whose two-then-one
backtracking is replicated explicitly.  `\s` is modelled by ASCII
whitespace. -/

/-- Consume exactly `n` digits, returning the remainder. -/
def matchNDigits : Nat → List Char → Option (List Char)
  | 0, l => some l
  | n + 1, c :: l => if c.isDigit then matchNDigits n l else none
  | _ + 1, [] => none

/-- Four digits, a dash or slash, two digits, a dash or slash, two
digits: the ISO-date alternative of `DATE_PATTERN`. -/
def dateAlt1 (l : List Char) : Bool :=
  match matchNDigits 4 l with
  | some (s1 :: r1) =>
    if s1 == '-' || s1 == '/' then
      match matchNDigits 2 r1 with
      | some (s2 :: r2) =>
        if s2 == '-' || s2 == '/' then
          match matchNDigits 2 r2 with
          | some [] => true
          | _ => false
        else false
      | _ => false
    else false
  | _ => false

def monthAbbrevs : List (List Char) :=
  [['j','a','n'], ['f','e','b'], ['m','a','r'], ['a','p','r'], ['m','a','y'],
   ['j','u','n'], ['j','u','l'], ['a','u','g'], ['s','e','p'], ['o','c','t'],
   ['n','o','v'], ['d','e','c']]

/-- The `\d{1,2},?\s*\d{4}$` tail of the month-name date alternative,
starting at the day digits; `r` is the remainder after the day. -/
def dateAlt2Rest (r : List Char) : Bool :=
  let r1 := if r.head? == some ',' then r.tail else r
  let r2 := r1.dropWhile isWs
  match matchNDigits 4 r2 with
  | some [] => true
  | _ => false

/-- `^(jan|…|dec)\s+\d{1,2},?\s*\d{4}$` (case-insensitive).  `\d{1,2}`
greedily tries two digits, then one. -/
def dateAlt2 (l : List Char) : Bool :=
  match l with
  | m1 :: m2 :: m3 :: r =>
    if monthAbbrevs.contains [m1.toLower, m2.toLower, m3.toLower] then
      if (r.takeWhile isWs).length = 0 then false
      else
        match r.dropWhile isWs with
        | a :: b :: r2 =>
          if a.isDigit then
            if b.isDigit then dateAlt2Rest r2 || dateAlt2Rest (b :: r2)
            else dateAlt2Rest (b :: r2)
          else false
        | [a] => a.isDigit && dateAlt2Rest []
        | [] => false
    else false
  | _ => false

/-- `^\d{1,2}:\d{2}\s*(am|pm)$` (case-insensitive). -/
def dateAlt3 (l : List Char) : Bool :=
  let ds := l.takeWhile Char.isDigit
  if ds.length = 0 || 2 < ds.length then false
  else
    match l.dropWhile Char.isDigit with
    | ':' :: r2 =>
      match matchNDigits 2 r2 with
      | some r3 =>
        match r3.dropWhile isWs with
        | [x, y] => (x.toLower == 'a' || x.toLower == 'p') && y.toLower == 'm'
        | _ => false
      | none => false
    | _ => false

/-- `DATE_PATTERN.is_match`: ISO dates, "Month D, YYYY" dates, and
clock times. -/
def datePattern (s : String) : Bool :=
  dateAlt1 s.toList || dateAlt2 s.toList || dateAlt3 s.toList

/-- Case-insensitively strip a literal word. -/
def stripPrefixCI (pat : List Char) (l : List Char) : Option (List Char) :=
  match pat, l with
  | [], r => some r
  | p :: ps, c :: cs => if c.toLower == p then stripPrefixCI ps cs else none
  | _ :: _, [] => none

/-- The `(step|phase)\s+\d+[:\s]\s*` alternative of `NUMBERED_PREFIX`,
returning the remainder after the match. -/
def numberedAlt2 (l : List Char) : Option (List Char) :=
  let afterWord :=
    match stripPrefixCI ['s','t','e','p'] l with
    | some r => some r
    | none => stripPrefixCI ['p','h','a','s','e'] l
  match afterWord with
  | none => none
  | some r =>
    if (r.takeWhile isWs).length = 0 then none
    else
      let r2 := r.dropWhile isWs
      if (r2.takeWhile Char.isDigit).length = 0 then none
      else
        match r2.dropWhile Char.isDigit with
        | x :: r3 => if x == ':' || isWs x then some (r3.dropWhile isWs) else none
        | [] => none

/-- `NUMBERED_PREFIX.find(name)` (anchored at the start): the remainder
after `\d+\.\s*` or `(step|phase)\s+\d+[:\s]\s*`, if either matches. -/
def numberedPrefixEnd (l : List Char) : Option (List Char) :=
  let alt1 : Option (List Char) :=
    if (l.takeWhile Char.isDigit).length = 0 then none
    else
      match l.dropWhile Char.isDigit with
      | '.' :: r2 => some (r2.dropWhile isWs)
      | _ => none
  match alt1 with
  | some r => some r
  | none => numberedAlt2 l

/-- `strip_numbered_prefix`. -/
def stripNumberedPrefix (s : String) : String :=
  match numberedPrefixEnd s.toList with
  | some r => String.mk r
  | none => s

def isLowerAZ (c : Char) : Bool := decide ('a' ≤ c) && decide (c ≤ 'z')

def yamlClassChar (c : Char) : Bool := c == '-' || isLowerAZ c || c == '_'

/-- `YAML_FRONTMATTER.is_match`: `^[a-z][-a-z_]*:` — a lowercase letter,
a run of `[-a-z_]`, then a colon. -/
def yamlFrontmatter (s : String) : Bool :=
  match s.toList with
  | c :: r => isLowerAZ c && ((r.dropWhile yamlClassChar).head? == some ':')
  | [] => false

/-! ## The data model (`src/parser/types.rs`, `src/types.rs`)

`file_refs`, `directives` and the heading levels play no role in the
checkers modelled here; fields are kept where the modelled code reads
them.  Paths are strings. -/

inductive Severity
  | info
  | warning
  | error
deriving DecidableEq, Repr

inductive Category
  | deadReference
  | vagueDirective
  | namingInconsistency
  | enumDrift
  | agentGuidelines
  | placeholderText
  | fileSize
  | credentialExposure
  | headingHierarchy
  | dangerousCommand
  | staleReference
  | emojiDensity
  | sessionJournal
  | missingEssentialSections
  | promptInjectionVector
  | missingVerification
  | negativeOnlyFraming
  | customPattern (patName : String)
deriving DecidableEq, Repr

/-- `Category`'s `Display` implementation. -/
def catDisplay : Category → String
  | .deadReference => "dead-reference"
  | .vagueDirective => "vague-directive"
  | .namingInconsistency => "naming-inconsistency"
  | .enumDrift => "enum-drift"
  | .agentGuidelines => "agent-guidelines"
  | .placeholderText => "placeholder-text"
  | .fileSize => "file-size"
  | .credentialExposure => "credential-exposure"
  | .headingHierarchy => "heading-hierarchy"
  | .dangerousCommand => "dangerous-command"
  | .staleReference => "stale-reference"
  | .emojiDensity => "emoji-density"
  | .sessionJournal => "session-journal"
  | .missingEssentialSections => "missing-essential-sections"
  | .promptInjectionVector => "prompt-injection-vector"
  | .missingVerification => "missing-verification"
  | .negativeOnlyFraming => "negative-only-framing"
  | .customPattern n => "custom:" ++ n

/-- The variant index underlying `Category`'s derived `Ord`. -/
def catRank : Category → Nat
  | .deadReference => 0
  | .vagueDirective => 1
  | .namingInconsistency => 2
  | .enumDrift => 3
  | .agentGuidelines => 4
  | .placeholderText => 5
  | .fileSize => 6
  | .credentialExposure => 7
  | .headingHierarchy => 8
  | .dangerousCommand => 9
  | .staleReference => 10
  | .emojiDensity => 11
  | .sessionJournal => 12
  | .missingEssentialSections => 13
  | .promptInjectionVector => 14
  | .missingVerification => 15
  | .negativeOnlyFraming => 16
  | .customPattern _ => 17

/-- The payload compared by `Category`'s derived `Ord` when ranks tie. -/
def catPayload : Category → String
  | .customPattern n => n
  | _ => ""

/-- `types::Diagnostic`. -/
structure Diagnostic where
  file : String
  line : Nat
  severity : Severity
  category : Category
  message : String
  suggestion : Option String
deriving DecidableEq, Repr

/-- `parser::types::Section`. -/
structure DocSection where
  level : Nat
  title : String
  line : Nat
  endLine : Nat
deriving DecidableEq, Repr

/-- `parser::types::Table`. -/
structure Table where
  headers : List String
  rows : List (List String)
  line : Nat
  parentSection : Option String
deriving DecidableEq, Repr

inductive SuppressKind
  | disable
  | enable
  | disableNextLine
deriving DecidableEq, Repr

/-- `parser::types::InlineSuppress`. -/
structure InlineSuppress where
  line : Nat
  kind : SuppressKind
  rule : Option String
deriving DecidableEq, Repr

/-- `parser::types::ParsedFile` (the fields the modelled checkers read). -/
structure ParsedFile where
  path : String
  sections : List DocSection
  tables : List Table
  suppressComments : List InlineSuppress
  rawLines : List String
deriving DecidableEq, Repr

/-- `cross_ref::CheckerContext`.  `historical_indices` is the set of file
indices matched by the historical-files globs; the glob evaluation itself
(`globset`) is outside the model, so the set is taken as given. -/
structure CheckerContext where
  files : List ParsedFile
  historicalIndices : List Nat
deriving DecidableEq, Repr

/-- `ctx.files[i].path` (indices produced by the checkers are in range;
out-of-range defaults to the empty string). -/
def pathAt (files : List ParsedFile) (i : Nat) : String :=
  ((files.get? i).map (·.path)).getD ""

/-! ## The naming-inconsistency checker
(`src/checkers/naming_inconsistency.rs`)

The checker groups occurrences in a `HashMap` and then iterates its keys;
that iteration order is not specified, so the model takes it as an
explicit parameter `ord : List String`.  The occurrence list inside each
group is built in a deterministic order (corpus order) in both the code
and the model. -/

/-- `NameOccurrence`. -/
structure NameOccurrence where
  original : String
  fileIdx : Nat
  line : Nat
deriving DecidableEq, Repr

/-- The occurrence-collection loop: per in-scope file, one occurrence per
non-empty trimmed table header (at the table's line), then one per
non-empty trimmed section title. -/
def collectOccurrences (scope : String → Bool) (files : List ParsedFile) :
    List NameOccurrence :=
  (files.enum.map fun p =>
    if scope p.2.path then
      (p.2.tables.map fun t =>
        t.headers.filterMap fun h =>
          let tr := trimStr h
          if tr == "" then none else some ⟨tr, p.1, t.line⟩).flatten
      ++ p.2.sections.filterMap fun s =>
          let tr := trimStr s.title
          if tr == "" then none else some ⟨tr, p.1, s.line⟩
    else []).flatten

/-- The group of a cluster key: all occurrences whose normalized original
equals the key, in collection order (the `HashMap` entry's `Vec`). -/
def groupOf (occs : List NameOccurrence) (key : String) : List NameOccurrence :=
  occs.filter fun o => normalize o.original == key

def quote (s : String) : String := "\"" ++ s ++ "\""

/-- `Vec::join(sep)`. -/
def joinSep (sep : String) : List String → String
  | [] => ""
  | [x] => x
  | x :: rest => x ++ sep ++ joinSep sep rest

def strLeB (a b : String) : Bool := !(strCmp a.toList b.toList == .gt)

/-- The ascending, duplicate-free element sequence of a `BTreeSet<&str>`. -/
def sortedDedup (l : List String) : List String :=
  dedupAdj (· == ·) (sortByStable strLeB l)

/-- One cluster of the exact-variant loop (`for group in groups.values()`):
skip when fewer than two distinct spellings, when the spellings differ
only by case, or when every occurrence comes from the first occurrence's
file; otherwise emit one warning per occurrence. -/
def clusterFindings (files : List ParsedFile) (group : List NameOccurrence) :
    List Diagnostic :=
  match group with
  | [] => []
  | g0 :: _ =>
    let uniq := sortedDedup (group.map (·.original))
    if uniq.length < 2 then []
    else
      let lowered := sortedDedup (uniq.map toLowerStr)
      if lowered.length < 2 then []
      else if !(group.any fun o => o.fileIdx != g0.fileIdx) then []
      else
        let msg := "Inconsistent naming: " ++ joinSep " vs " (uniq.map quote)
          ++ " refer to the same concept"
        let suggestion := "Standardize to one form: use either \""
          ++ (uniq.get? 0).getD "" ++ "\" or \"" ++ (uniq.get? 1).getD ""
          ++ "\" consistently"
        group.map fun occ =>
          ⟨pathAt files occ.fileIdx, occ.line, .warning, .namingInconsistency,
            msg, some suggestion⟩

/-- `HashSet<usize>` equality of the two groups' file-index sets. -/
def sameSetNat (la lb : List Nat) : Bool :=
  la.all lb.contains && lb.all la.contains

/-- One unordered key pair of the fuzzy near-miss loop: threshold check,
then the suppression filters in source order (dates, YAML front matter,
numbered prefixes, digit stripping, equal document sets), then one info
finding per occurrence of both groups. -/
def pairFindings (files : List ParsedFile) (occs : List NameOccurrence)
    (ka kb : String) : List Diagnostic :=
  let ga := groupOf occs ka
  let gb := groupOf occs kb
  let sim := jaroWinkler ka kb
  if Frac.ltb sim ⟨95, 100⟩ then []
  else
    match ga.head?, gb.head? with
    | some a0, some b0 =>
      if datePattern a0.original || datePattern b0.original then []
      else if yamlFrontmatter a0.original || yamlFrontmatter b0.original then []
      else
        let sa := stripNumberedPrefix a0.original
        let sb := stripNumberedPrefix b0.original
        if !(sa == "") && eqIgnoreAsciiCase sa sb then []
        else
          let nda := String.mk (a0.original.toList.filter fun c => !c.isDigit)
          let ndb := String.mk (b0.original.toList.filter fun c => !c.isDigit)
          if !(nda == "") && eqIgnoreAsciiCase nda ndb then []
          else if sameSetNat (ga.map (·.fileIdx)) (gb.map (·.fileIdx)) then []
          else
            let msg := "Similar names: \"" ++ a0.original ++ "\" and \""
              ++ b0.original ++ "\" might refer to the same concept (similarity: "
              ++ fmtPercent sim ++ "%)"
            let suggestion := "Standardize to one form: use either \""
              ++ a0.original ++ "\" or \"" ++ b0.original ++ "\" consistently"
            (ga ++ gb).map fun occ =>
              ⟨pathAt files occ.fileIdx, occ.line, .info, .namingInconsistency,
                msg, some suggestion⟩
    | _, _ => []

/-- All index pairs `i < j`, in nested-loop order. -/
def pairsOf {α : Type} : List α → List (α × α)
  | [] => []
  | x :: xs => xs.map (fun y => (x, y)) ++ pairsOf xs

/-- `NamingInconsistencyChecker::check`, with the map's key enumeration
order `ord` explicit: the exact-variant cluster loop over `ord`, then the
fuzzy pair loop over the keys of `ord` with at least two `_`-separated
segments. -/
def namingCheckWith (scope : String → Bool) (ord : List String)
    (files : List ParsedFile) : List Diagnostic :=
  let occs := collectOccurrences scope files
  let clusterPart := (ord.map fun k => clusterFindings files (groupOf occs k)).flatten
  let keys2 := ord.filter fun k => decide (2 ≤ underscoreSegments k)
  let pairPart := ((pairsOf keys2).map fun p => pairFindings files occs p.1 p.2).flatten
  clusterPart ++ pairPart

/-- The checker as run on a context.  It reads `ctx.files` only — in
particular it does not consult `historical_indices`. -/
def namingCheck (scope : String → Bool) (ord : List String)
    (ctx : CheckerContext) : List Diagnostic :=
  namingCheckWith scope ord ctx.files

/-! ## The enum-drift checker (`src/checkers/enum_drift.rs`) -/

/-- `TableRef`. -/
structure TableRef where
  table : Table
  fileIdx : Nat
  normalizedHeaders : List String
deriving DecidableEq, Repr

/-- The table collection: files that are not historical and are in scope,
flattened to one `TableRef` per table with pre-normalized headers. -/
def tableRefsOf (scope : String → Bool) (ctx : CheckerContext) : List TableRef :=
  ((ctx.files.enum.filter fun p =>
      !(ctx.historicalIndices.contains p.1) && scope p.2.path).map fun p =>
    p.2.tables.map fun t => ⟨t, p.1, t.headers.map normalize⟩).flatten

/-- The count of `a`'s headers whose normalized key occurs among `b`'s. -/
def sharedHeaderCount (a b : TableRef) : Nat :=
  (a.normalizedHeaders.filter fun h => b.normalizedHeaders.contains h).length

/-- `tables_match`: two shared headers always match; a single shared
header matches only on highly similar parent section titles. -/
def tablesMatch (a b : TableRef) : Bool :=
  if 2 ≤ sharedHeaderCount a b then true
  else if 1 ≤ sharedHeaderCount a b then
    match a.table.parentSection, b.table.parentSection with
    | some sa, some sb => Frac.leb ⟨8, 10⟩ (jaroWinkler sa sb)
    | _, _ => false
  else false

/-- Keep-first deduplication (the contents of a `HashSet<String>`; every
use downstream is order-insensitive). -/
def dedupKeepFirstAux (seen : List String) : List String → List String
  | [] => []
  | x :: xs =>
    if seen.contains x then dedupKeepFirstAux seen xs
    else x :: dedupKeepFirstAux (seen ++ [x]) xs

def dedupKeepFirst (l : List String) : List String := dedupKeepFirstAux [] l

/-- `collect_values`: the set of non-empty trimmed cell values below
column `col`; `row.get(col)` is bounds-checked, so rows shorter than the
header list simply contribute nothing. -/
def collectValues (t : Table) (col : Nat) : List String :=
  dedupKeepFirst
    (((t.rows.filterMap fun row => row.get? col).map trimStr).filter fun v => !(v == ""))

/-- `format_values`: sort, quote, and truncate values longer than 50
characters with a trailing ellipsis. -/
def formatValues (vals : List String) : String :=
  joinSep ", " ((sortByStable strLeB vals).map fun v =>
    if 50 < v.toList.length then quote (String.mk (v.toList.take 50) ++ "...")
    else quote v)

/-- `Path::file_name().unwrap_or_default()`: the part after the last
slash. -/
def fileNameOf (p : String) : String :=
  String.mk ((p.toList.reverse.takeWhile fun c => !(c == '/')).reverse)

/-- One side of a drift comparison: no finding when nothing is unique to
`src`, else one warning at `src`'s table naming the unique values. -/
def driftSide (files : List ParsedFile) (src other : TableRef) (col : Nat)
    (diff : List String) : List Diagnostic :=
  if diff.isEmpty then []
  else
    let msg := "Column \"" ++ ((src.table.headers.get? col).getD "")
      ++ "\" has values " ++ formatValues diff ++ " not found in "
      ++ fileNameOf (pathAt files other.fileIdx)
    [⟨pathAt files src.fileIdx, src.table.line, .warning, .enumDrift, msg,
      some "Align the value sets across files or document why they differ"⟩]

/-- The per-column emissions of `check_drift` for one shared column,
before the `seen` filter: the two value-set differences, `a`'s side then
`b`'s side. -/
def driftColumn (files : List ParsedFile) (a b : TableRef) (colA colB : Nat) :
    List Diagnostic :=
  let valuesA := collectValues a.table colA
  let valuesB := collectValues b.table colB
  let onlyA := valuesA.filter fun v => !(valuesB.contains v)
  let onlyB := valuesB.filter fun v => !(valuesA.contains v)
  driftSide files a b colA onlyA ++ driftSide files b a colB onlyB

/-- The `seen.insert(format!("{}:{}:{}", file, line, msg))` gate. -/
def pushWithSeen (st : List Diagnostic × List String) (d : Diagnostic) :
    List Diagnostic × List String :=
  let key := d.file ++ ":" ++ Nat.repr d.line ++ ":" ++ d.message
  if st.2.contains key then st else (st.1 ++ [d], st.2 ++ [key])

/-- `check_drift` over one matched pair: for each header of `a`, the
first position of `b` with the same normalized key, its two-sided
column-drift emissions, gated by `seen`. -/
def checkDrift (files : List ParsedFile) (a b : TableRef)
    (st : List Diagnostic × List String) : List Diagnostic × List String :=
  ((a.normalizedHeaders.enum.map fun p =>
    match b.normalizedHeaders.findIdx? (· == p.2) with
    | some colB => driftColumn files a b p.1 colB
    | none => []).flatten).foldl pushWithSeen st

/-- The ordered pairs on which `check_drift` runs: distinct files and
`tables_match` (the two `continue`s of the pair loop). -/
def contributingPairs (scope : String → Bool) (ctx : CheckerContext) :
    List (TableRef × TableRef) :=
  (pairsOf (tableRefsOf scope ctx)).filter fun p =>
    !(p.1.fileIdx == p.2.fileIdx) && tablesMatch p.1 p.2

/-- `EnumDriftChecker::check`. -/
def enumDriftCheck (scope : String → Bool) (ctx : CheckerContext) :
    List Diagnostic :=
  ((contributingPairs scope ctx).foldl
    (fun st p => checkDrift ctx.files p.1 p.2 st) ([], [])).1

/-! ## The suppression resolver (`src/engine/suppress.rs`) -/

structure SuppressedRange where
  rule : Option String
  startLine : Nat
  endLine : Nat
deriving DecidableEq, Repr

/-- `Iterator::rposition`. -/
def rposition {α : Type} (p : α → Bool) (l : List α) : Option Nat :=
  ((l.enum.filter fun q => p q.2).map (·.1)).getLast?

/-- One step of `build_ranges`: state is (closed ranges, open blocks). -/
def buildRangesStep (st : List SuppressedRange × List (Option String × Nat))
    (c : InlineSuppress) : List SuppressedRange × List (Option String × Nat) :=
  match c.kind with
  | .disable => (st.1, st.2 ++ [(c.rule, c.line)])
  | .enable =>
    match rposition (fun q => q.1 == c.rule) st.2 with
    | some pos =>
      match st.2.get? pos with
      | some q => (st.1 ++ [⟨q.1, q.2, c.line⟩], st.2.eraseIdx pos)
      | none => st
    | none => st
  | .disableNextLine => (st.1 ++ [⟨c.rule, c.line + 1, c.line + 1⟩], st.2)

/-- `build_ranges`: process the comments, then close the still-open
blocks at the end of the file. -/
def buildRanges (comments : List InlineSuppress) (totalLines : Nat) :
    List SuppressedRange :=
  let st := comments.foldl buildRangesStep ([], [])
  st.1 ++ st.2.map fun q => ⟨q.1, q.2, totalLines⟩

/-- Lookup in `build_suppression_set`'s map: among files with non-empty
ranges, the last one with the given path wins (`HashMap::from_iter`
overwrites earlier keys). -/
def suppressionRangesFor (files : List ParsedFile) (p : String) :
    List SuppressedRange :=
  match (files.filter fun f =>
      !(buildRanges f.suppressComments f.rawLines.length).isEmpty).reverse.find?
      (fun f => f.path == p) with
  | some f => buildRanges f.suppressComments f.rawLines.length
  | none => []

/-- `is_suppressed`. -/
def isSuppressed (files : List ParsedFile) (p : String) (line : Nat)
    (category : String) : Bool :=
  (suppressionRangesFor files p).any fun r =>
    decide (r.startLine ≤ line) && decide (line ≤ r.endLine) &&
      (match r.rule with
       | none => true
       | some ru => ru == category)

/-! ## The engine (`src/engine/mod.rs`, `run`)

The engine concatenates the enabled checkers' diagnostics (among them,
`NamingInconsistencyChecker` runs before `EnumDriftChecker` in
`all_checkers`), drops suppressed ones, sorts by the tuple
`(file, line, category, message)` and removes consecutive duplicates of
the same tuple.  Only the two checkers of the consistency core are
modelled; the remaining checkers are independent single-line scanners
outside the modelled subsystem. -/

/-- The engine's comparison tuple `(&file, line, &category, &message)`;
`Category`'s derived `Ord` is variant rank, then the `CustomPattern`
payload. -/
def engineCmp (a b : Diagnostic) : Ordering :=
  (strCmp a.file.toList b.file.toList).then
    ((cmpN a.line b.line).then
      ((cmpN (catRank a.category) (catRank b.category)).then
        ((strCmp (catPayload a.category).toList (catPayload b.category).toList).then
          (strCmp a.message.toList b.message.toList))))

def engineLe (a b : Diagnostic) : Bool := !(engineCmp a b == .gt)

/-- The `dedup_by` predicate: equality of file, line, category, message. -/
def engineEq (a b : Diagnostic) : Bool :=
  a.file == b.file && a.line == b.line && a.category == b.category &&
    a.message == b.message

/-- `run` after parsing: checker outputs (naming first, then enum-drift),
suppression filter, stable sort, adjacent dedup. -/
def runWith (scopeN scopeE : String → Bool) (ord : List String)
    (ctx : CheckerContext) : List Diagnostic :=
  let ds := namingCheck scopeN ord ctx ++ enumDriftCheck scopeE ctx
  let kept := ds.filter fun d =>
    !(isSuppressed ctx.files d.file d.line (catDisplay d.category))
  dedupAdj engineEq (sortByStable engineLe kept)

/-- The scope filter built from an empty pattern list
(`ScopeFilter::new(&[])` includes every path). -/
def scopeAll : String → Bool := fun _ => true

/-! ## Character facts

Arithmetic consequences of the ASCII character classifiers, needed for
the normalizer proofs. -/

theorem char_eq_iff_toNat {a b : Char} : a = b ↔ a.toNat = b.toNat := by
  constructor
  · rintro rfl; rfl
  · intro h; exact Char.ext (UInt32.toNat.inj h)

theorem charOfNat_toNat {n : Nat} (h : n.isValidChar) : (Char.ofNat n).toNat = n := by
  rw [Char.ofNat, dif_pos h]
  rfl

theorem isUpper_iff {c : Char} : c.isUpper = true ↔ 65 ≤ c.toNat ∧ c.toNat ≤ 90 := by
  simp only [Char.isUpper, Bool.and_eq_true, decide_eq_true_eq]
  constructor
  · intro h; exact ⟨h.1, h.2⟩
  · intro h; exact ⟨h.1, h.2⟩

theorem isLower_iff {c : Char} : c.isLower = true ↔ 97 ≤ c.toNat ∧ c.toNat ≤ 122 := by
  simp only [Char.isLower, Bool.and_eq_true, decide_eq_true_eq]
  constructor
  · intro h; exact ⟨h.1, h.2⟩
  · intro h; exact ⟨h.1, h.2⟩

theorem isDelim_iff {c : Char} : isDelim c = true ↔
    c.toNat = 95 ∨ c.toNat = 45 ∨ c.toNat = 32 := by
  simp only [isDelim, Bool.or_eq_true, beq_iff_eq]
  rw [char_eq_iff_toNat, char_eq_iff_toNat, char_eq_iff_toNat]
  simp only [show ('_').toNat = 95 from rfl, show ('-').toNat = 45 from rfl,
    show (' ').toNat = 32 from rfl]
  tauto

theorem toLower_toNat_of_upper {c : Char} (h : c.isUpper = true) :
    (c.toLower).toNat = c.toNat + 32 := by
  rw [isUpper_iff] at h
  rw [Char.toLower, if_pos ⟨h.1, h.2⟩]
  exact charOfNat_toNat (by left; omega)

theorem toLower_eq_self {c : Char} (h : c.isUpper = false) : c.toLower = c := by
  rw [Char.toLower]
  split
  · rename_i hp
    exfalso
    rw [Bool.eq_false_iff] at h
    exact h (isUpper_iff.mpr ⟨hp.1, hp.2⟩)
  · rfl

theorem isUpper_toLower (c : Char) : (c.toLower).isUpper = false := by
  cases h : c.isUpper with
  | false => rw [toLower_eq_self h]; exact h
  | true =>
    have ht := toLower_toNat_of_upper h
    rw [isUpper_iff] at h
    cases hu : (c.toLower).isUpper with
    | false => rfl
    | true => rw [isUpper_iff] at hu; omega

theorem isDelim_toLower {c : Char} (h : isDelim c = false) : isDelim c.toLower = false := by
  cases hup : c.isUpper with
  | false => rw [toLower_eq_self hup]; exact h
  | true =>
    have ht := toLower_toNat_of_upper hup
    rw [isUpper_iff] at hup
    cases hd : isDelim c.toLower with
    | false => rfl
    | true => rw [isDelim_iff] at hd; omega

theorem isDelim_of_upper {c : Char} (h : c.isUpper = true) : isDelim c = false := by
  rw [isUpper_iff] at h
  cases hd : isDelim c with
  | false => rfl
  | true => rw [isDelim_iff] at hd; omega

theorem isUpper_of_lower {c : Char} (h : c.isLower = true) : c.isUpper = false := by
  rw [isLower_iff] at h
  cases hu : c.isUpper with
  | false => rfl
  | true => rw [isUpper_iff] at hu; omega

/-! ## Structure of the normalizer's output

A token is plain when it contains no delimiter and no uppercase letter;
`normalizeGo` only ever produces non-empty plain tokens, and on
already-normalized text (plain tokens joined by single underscores) the
normalizer is the identity.  Together these give idempotence. -/

/-- No delimiters, no uppercase letters. -/
def plainTok (t : List Char) : Prop :=
  ∀ c ∈ t, isDelim c = false ∧ c.isUpper = false

/-- Non-empty plain tokens. -/
def wfTokens (ts : List (List Char)) : Prop :=
  ∀ t ∈ ts, t ≠ [] ∧ plainTok t

theorem plainTok_nil : plainTok [] := by intro c hc; cases hc

theorem plainTok_append {t u : List Char} (ht : plainTok t) (hu : plainTok u) :
    plainTok (t ++ u) := by
  intro c hc
  rcases List.mem_append.mp hc with h | h
  · exact ht c h
  · exact hu c h

theorem wfTokens_nil : wfTokens [] := by intro t ht; cases ht

theorem wfTokens_pushTok {parts : List (List Char)} {cur : List Char}
    (hp : wfTokens parts) (hc : plainTok cur) : wfTokens (pushTok parts cur) := by
  unfold pushTok
  split
  · exact hp
  · rename_i hne
    intro t ht
    rcases List.mem_append.mp ht with h | h
    · exact hp t h
    · rw [List.mem_singleton] at h
      subst h
      exact ⟨hne, hc⟩

theorem wfTokens_append_single {parts : List (List Char)} {t : List Char}
    (hp : wfTokens parts) (hne : t ≠ []) (hpl : plainTok t) :
    wfTokens (parts ++ [t]) := by
  intro u hu
  rcases List.mem_append.mp hu with h | h
  · exact hp u h
  · rw [List.mem_singleton] at h
    subst h
    exact ⟨hne, hpl⟩

theorem getLastBang_mem {α : Type} [Inhabited α] :
    ∀ (x : α) (t : List α), (x :: t).getLast! ∈ x :: t := by
  intro x t
  induction t generalizing x with
  | nil => simp [List.getLast!]
  | cons y ys ih =>
    have h : (x :: y :: ys).getLast! = (y :: ys).getLast! := by
      simp [List.getLast!, List.getLast]
    rw [h]
    exact List.mem_cons_of_mem x (ih y)

theorem plainTok_map_toLower_of_upper {t : List Char}
    (h : ∀ c ∈ t, c.isUpper = true) : plainTok (t.map Char.toLower) := by
  intro c hc
  rcases List.mem_map.mp hc with ⟨u, hu, rfl⟩
  exact ⟨isDelim_toLower (isDelim_of_upper (h u hu)), isUpper_toLower u⟩

/-- Every token produced by the normalizer's scan loop is plain and
non-empty (given plain accumulators). -/
theorem normalizeGo_wf : ∀ (fuel : Nat) (l : List Char)
    (parts : List (List Char)) (cur : List Char),
    wfTokens parts → plainTok cur → wfTokens (normalizeGo fuel l parts cur) := by
  intro fuel
  induction fuel with
  | zero =>
    intro l parts cur hp hc
    cases l with
    | nil => exact wfTokens_pushTok hp hc
    | cons c rest => exact wfTokens_pushTok hp hc
  | succ f ih =>
    intro l parts cur hp hc
    cases l with
    | nil => exact wfTokens_pushTok hp hc
    | cons c rest =>
      by_cases hd : isDelim c = true
      · simp only [normalizeGo, hd, if_true]
        exact ih rest (pushTok parts cur) [] (wfTokens_pushTok hp hc) plainTok_nil
      · rw [Bool.not_eq_true] at hd
        by_cases hup : c.isUpper = true
        · have hrun : ∀ u ∈ c :: rest.takeWhile Char.isUpper, u.isUpper = true := by
            intro u hu
            rcases List.mem_cons.mp hu with rfl | hu
            · exact hup
            · exact List.mem_takeWhile_imp hu
          have hacr : plainTok ((c :: rest.takeWhile Char.isUpper).map Char.toLower) :=
            plainTok_map_toLower_of_upper hrun
          simp only [normalizeGo, hd, hup, if_true, Bool.false_eq_true, if_false]
          split
          · rename_i hlen
            split
            · refine ih _ _ _ ?_ ?_
              · refine wfTokens_append_single (wfTokens_pushTok hp hc) ?_ ?_
                · have hdl : (c :: rest.takeWhile Char.isUpper).dropLast.length =
                      (c :: rest.takeWhile Char.isUpper).length - 1 :=
                    List.length_dropLast _
                  intro hb
                  rw [← List.length_eq_zero, List.length_map, hdl] at hb
                  omega
                · exact plainTok_map_toLower_of_upper fun u hu =>
                    hrun u ((List.dropLast_sublist _).subset hu)
              · intro x hx
                rw [List.mem_singleton] at hx
                subst hx
                refine ⟨?_, isUpper_toLower _⟩
                refine isDelim_toLower (isDelim_of_upper ?_)
                exact hrun _ (getLastBang_mem c (rest.takeWhile Char.isUpper))
            · refine ih _ _ _ ?_ plainTok_nil
              exact wfTokens_append_single (wfTokens_pushTok hp hc) (by simp) hacr
          · refine ih _ _ _ (wfTokens_pushTok hp hc) ?_
            intro x hx
            rw [List.mem_singleton] at hx
            subst hx
            exact ⟨isDelim_toLower (isDelim_of_upper hup), isUpper_toLower c⟩
        · rw [Bool.not_eq_true] at hup
          simp only [normalizeGo, hd, hup, Bool.false_eq_true, if_false]
          refine ih _ _ _ hp ?_
          refine plainTok_append hc ?_
          intro x hx
          rw [List.mem_singleton] at hx
          subst hx
          rw [toLower_eq_self hup]
          exact ⟨hd, hup⟩

/-- Consuming a plain token appends it, lowered to itself, to `cur`. -/
theorem normalizeGo_plain_front : ∀ (t : List Char) (fuel : Nat)
    (l : List Char) (parts : List (List Char)) (cur : List Char),
    plainTok t → t.length ≤ fuel →
    normalizeGo fuel (t ++ l) parts cur =
      normalizeGo (fuel - t.length) l parts (cur ++ t) := by
  intro t
  induction t with
  | nil => intro fuel l parts cur _ _; simp
  | cons c t' ih =>
    intro fuel l parts cur hpl hle
    cases fuel with
    | zero => simp at hle
    | succ f =>
      obtain ⟨hnd, hnu⟩ := hpl c (by simp)
      simp only [List.cons_append, normalizeGo, hnd, hnu, Bool.false_eq_true,
        if_false]
      rw [toLower_eq_self hnu]
      have hih := ih f l parts (cur ++ [c]) (fun x hx => hpl x (by simp [hx]))
        (by simpa using hle)
      simp only [List.append_eq] at hih ⊢
      rw [hih]
      have h1 : f + 1 - (c :: t').length = f - t'.length := by simp
      have h2 : cur ++ [c] ++ t' = cur ++ c :: t' := by simp
      rw [h1, h2]

theorem joinUnderscore_cons_cons (t t2 : List Char) (rest : List (List Char)) :
    joinUnderscore (t :: t2 :: rest) = t ++ '_' :: joinUnderscore (t2 :: rest) := rfl

/-- On plain, non-empty tokens joined by underscores the scan loop just
returns the tokens. -/
theorem normalizeGo_join : ∀ (ts : List (List Char)) (parts : List (List Char))
    (fuel : Nat), wfTokens ts → (joinUnderscore ts).length ≤ fuel →
    normalizeGo fuel (joinUnderscore ts) parts [] = parts ++ ts := by
  intro ts
  induction ts with
  | nil =>
    intro parts fuel _ _
    cases fuel <;> simp [joinUnderscore, normalizeGo, pushTok]
  | cons t rest ih =>
    intro parts fuel hwf hle
    obtain ⟨hne, hpl⟩ := hwf t (by simp)
    cases rest with
    | nil =>
      have hj : joinUnderscore [t] = t := rfl
      rw [hj] at hle ⊢
      rw [show (t : List Char) = t ++ [] by simp] at hle ⊢
      rw [normalizeGo_plain_front t fuel [] parts [] hpl (by simpa using hle)]
      cases hf : fuel - (t ++ []).length <;>
        simp [normalizeGo, pushTok, hne]
    | cons t2 rest2 =>
      rw [joinUnderscore_cons_cons] at hle ⊢
      rw [normalizeGo_plain_front t fuel ('_' :: joinUnderscore (t2 :: rest2))
        parts [] hpl (by simp at hle; omega)]
      have hgt : 1 + (joinUnderscore (t2 :: rest2)).length ≤ fuel - t.length := by
        simp at hle
        omega
      obtain ⟨f, hf⟩ : ∃ f, fuel - t.length = f + 1 := by
        refine ⟨fuel - t.length - 1, ?_⟩
        omega
      rw [hf]
      have hdelim : isDelim '_' = true := by decide
      simp only [normalizeGo, hdelim, if_true]
      rw [show pushTok parts ([] ++ t) = parts ++ [t] by simp [pushTok, hne]]
      rw [ih (parts ++ [t]) f (fun u hu => hwf u (by simp [hu])) (by omega)]
      simp

/-! ## Lawfulness of the engine's ordering -/

theorem LawfulCmp.comap {α β : Type} {f : β → β → Ordering}
    (hf : LawfulCmp f) (k : α → β) : LawfulCmp (fun a b => f (k a) (k b)) :=
  ⟨fun a b => hf.swap_eq _ _, fun h1 h2 => hf.lt_trans h1 h2, fun h => hf.eq_left h⟩

theorem engineCmp_lawful : LawfulCmp engineCmp := by
  have h5 := strCmp_lawful.comap (fun d : Diagnostic => d.message.toList)
  have h4 := (strCmp_lawful.comap
    (fun d : Diagnostic => (catPayload d.category).toList)).then h5
  have h3 := (cmpN_lawful.comap (fun d : Diagnostic => catRank d.category)).then h4
  have h2 := (cmpN_lawful.comap (fun d : Diagnostic => d.line)).then h3
  have h1 := (strCmp_lawful.comap (fun d : Diagnostic => d.file.toList)).then h2
  exact h1

theorem engineCmp_gt_iff_lt {a b : Diagnostic} :
    engineCmp a b = .gt ↔ engineCmp b a = .lt := by
  have hswap := engineCmp_lawful.swap_eq a b
  constructor
  · intro hg
    rw [hg] at hswap
    cases h : engineCmp b a <;> rw [h] at hswap
    · exact absurd hswap (by decide)
    · exact absurd hswap (by decide)
  · intro hl
    rw [hl] at hswap
    exact hswap

theorem engineLe_total (a b : Diagnostic) : (engineLe a b || engineLe b a) = true := by
  unfold engineLe
  cases h : engineCmp a b with
  | lt => rfl
  | eq => rfl
  | gt =>
    have hba : engineCmp b a = .lt := engineCmp_gt_iff_lt.mp h
    rw [hba]
    rfl

theorem engineLe_trans {a b c : Diagnostic} (h1 : engineLe a b = true)
    (h2 : engineLe b c = true) : engineLe a c = true := by
  unfold engineLe at *
  cases hab : engineCmp a b with
  | gt =>
    rw [hab] at h1
    exact absurd h1 (by decide)
  | lt =>
    cases hbc : engineCmp b c with
    | gt =>
      rw [hbc] at h2
      exact absurd h2 (by decide)
    | lt =>
      rw [engineCmp_lawful.lt_trans hab hbc]
      rfl
    | eq =>
      have h3 : engineCmp a c = engineCmp a b := (engineCmp_lawful.eq_right hbc).symm
      rw [h3, hab]
      rfl
  | eq =>
    have h3 : engineCmp a c = engineCmp b c := engineCmp_lawful.eq_left hab
    rw [h3]
    exact h2

theorem then_eq_eq {o p : Ordering} : o.then p = .eq ↔ o = .eq ∧ p = .eq := by
  cases o <;> cases p <;> simp [Ordering.then]

theorem stringToList_inj {a b : String} (h : a.toList = b.toList) : a = b := by
  cases a
  cases b
  cases h
  rfl

theorem catRank_payload_inj {c d : Category} (h1 : catRank c = catRank d)
    (h2 : catPayload c = catPayload d) : c = d := by
  cases c <;> cases d <;> simp_all [catRank, catPayload]

theorem engineEq_true_iff {a b : Diagnostic} :
    engineEq a b = true ↔ engineCmp a b = .eq := by
  constructor
  · intro h
    unfold engineEq at h
    simp only [Bool.and_eq_true, beq_iff_eq] at h
    obtain ⟨⟨⟨hf, hl⟩, hc⟩, hm⟩ := h
    unfold engineCmp
    rw [hf, hl, hc, hm]
    rw [strCmp_eq_iff.mpr rfl, cmpN_eq_iff.mpr rfl, cmpN_eq_iff.mpr rfl,
      strCmp_eq_iff.mpr rfl, strCmp_eq_iff.mpr rfl]
    rfl
  · intro h
    unfold engineCmp at h
    rw [then_eq_eq] at h
    obtain ⟨hf, h⟩ := h
    rw [then_eq_eq] at h
    obtain ⟨hl, h⟩ := h
    rw [then_eq_eq] at h
    obtain ⟨hr, h⟩ := h
    rw [then_eq_eq] at h
    obtain ⟨hp, hm⟩ := h
    have hfile : a.file = b.file := stringToList_inj (strCmp_eq_iff.mp hf)
    have hline : a.line = b.line := cmpN_eq_iff.mp hl
    have hcat : a.category = b.category :=
      catRank_payload_inj (cmpN_eq_iff.mp hr)
        (stringToList_inj (strCmp_eq_iff.mp hp))
    have hmsg : a.message = b.message := stringToList_inj (strCmp_eq_iff.mp hm)
    unfold engineEq
    simp [hfile, hline, hcat, hmsg]

theorem engineEq_eq_le_both (a b : Diagnostic) :
    engineEq a b = (engineLe a b && engineLe b a) := by
  cases h : engineCmp a b with
  | eq =>
    have h1 : engineEq a b = true := engineEq_true_iff.mpr h
    have h2 : engineCmp b a = .eq := engineCmp_lawful.eq_swap h
    rw [h1]
    unfold engineLe
    rw [h, h2]
    rfl
  | lt =>
    have h1 : engineEq a b = false := by
      cases he : engineEq a b
      · rfl
      · rw [engineEq_true_iff.mp he] at h; cases h
    have h2 : engineCmp b a = .gt := by
      rw [engineCmp_gt_iff_lt]
      exact h
    rw [h1]
    unfold engineLe
    rw [h, h2]
    rfl
  | gt =>
    have h1 : engineEq a b = false := by
      cases he : engineEq a b
      · rfl
      · rw [engineEq_true_iff.mp he] at h; cases h
    rw [h1]
    unfold engineLe
    rw [h]
    rfl

/-! ## Splitting an uppercase run -/

theorem takeWhile_append_all {p : Char → Bool} :
    ∀ (u : List Char) (d : Char) (r : List Char),
      (∀ c ∈ u, p c = true) → p d = false →
      (u ++ d :: r).takeWhile p = u ∧ (u ++ d :: r).dropWhile p = d :: r := by
  intro u
  induction u with
  | nil =>
    intro d r _ hd
    simp [List.takeWhile_cons, List.dropWhile_cons, hd]
  | cons x xs ih =>
    intro d r hall hd
    have hx := hall x (by simp)
    obtain ⟨h1, h2⟩ := ih d r (fun c hc => hall c (by simp [hc])) hd
    simp [List.takeWhile_cons, List.dropWhile_cons, hx, h1, h2]

/-! ## The claims -/

/-- C7: the acronym-aware normalizer maps `HTTPRequest` to
`http_request`, `requestAPI` to `request_api`, `API2` to `api_2` and the
empty string to itself; and in general, when the scan reaches a run of
two or more uppercase letters followed by a lowercase letter, the run's
last character is reassigned to start the next token while the others
form one lowercased token. -/
theorem normalize_acronym_reference_values :
    normalize "HTTPRequest" = "http_request" ∧
    normalize "requestAPI" = "request_api" ∧
    normalize "API2" = "api_2" ∧
    normalize "" = "" ∧
    (∀ (us : List Char) (d : Char) (rest : List Char) (fuel : Nat)
        (parts : List (List Char)) (cur : List Char),
      2 ≤ us.length → (∀ c ∈ us, c.isUpper = true) → d.isLower = true →
      normalizeGo (fuel + 1) (us ++ d :: rest) parts cur =
        normalizeGo fuel (d :: rest)
          (pushTok parts cur ++ [us.dropLast.map Char.toLower])
          [us.getLast!.toLower]) := by
  refine ⟨by decide, by decide, by decide, by decide, ?_⟩
  intro us d rest fuel parts cur hlen hall hd
  cases us with
  | nil => simp at hlen
  | cons u us' =>
    have hu := hall u (by simp)
    have hnd : isDelim u = false := isDelim_of_upper hu
    have hdu : d.isUpper = false := isUpper_of_lower hd
    obtain ⟨ht, hdr⟩ := takeWhile_append_all us' d rest
      (fun c hc => hall c (by simp [hc])) hdu
    simp only [List.cons_append, normalizeGo, hnd, hu, if_true,
      Bool.false_eq_true, if_false, List.append_eq]
    rw [ht, hdr]
    have hlen2 : 1 < (u :: us').length := hlen
    rw [if_pos hlen2]
    simp [hd]

/-- A closed instance of the acronym-run clause of
`normalize_acronym_reference_values`, with its hypotheses discharged on
the run `API` followed by `x`. -/
theorem normalize_acronym_reference_values_witness :
    (2 ≤ (['A', 'P', 'I'] : List Char).length ∧
      (∀ c ∈ (['A', 'P', 'I'] : List Char), c.isUpper = true) ∧
      ('x').isLower = true) ∧
    normalizeGo 4 (['A', 'P', 'I'] ++ 'x' :: []) [] [] =
      normalizeGo 3 ('x' :: []) (pushTok [] [] ++
        [(['A', 'P', 'I'] : List Char).dropLast.map Char.toLower])
        [(['A', 'P', 'I'] : List Char).getLast!.toLower] :=
  ⟨⟨by decide, by decide, by decide⟩,
    normalize_acronym_reference_values.2.2.2.2 ['A', 'P', 'I'] 'x' [] 3 [] []
      (by decide) (by decide) (by decide)⟩

/-- C8: normalization is idempotent — applying `normalize` to its own
output returns the output unchanged, for every input string. -/
theorem normalize_idempotent (s : String) : normalize (normalize s) = normalize s := by
  have hT := normalizeGo_wf s.toList.length s.toList [] [] wfTokens_nil plainTok_nil
  show String.mk (joinUnderscore
    (normalizeGo (normalize s).toList.length (normalize s).toList [] [])) = normalize s
  have hts : (normalize s).toList =
      joinUnderscore (normalizeGo s.toList.length s.toList [] []) := rfl
  rw [hts, normalizeGo_join _ [] _ hT (le_refl _)]
  rfl

/-- C9 (amended): the engine's output is strictly increasing in the
tuple (document, line, category, message): it is sorted by that tuple
and contains no two findings that agree on all four components. -/
theorem run_output_sorted_and_deduped (scopeN scopeE : String → Bool)
    (ord : List String) (ctx : CheckerContext) :
    (runWith scopeN scopeE ord ctx).Pairwise (fun a b => engineCmp a b = .lt) := by
  unfold runWith
  have hs := sortByStable_pairwise engineLe_total
    (fun h1 h2 => engineLe_trans h1 h2)
    ((namingCheck scopeN ord ctx ++ enumDriftCheck scopeE ctx).filter fun d =>
      !(isSuppressed ctx.files d.file d.line (catDisplay d.category)))
  have hd := @dedupAdj_strict Diagnostic engineLe engineEq
    (fun h1 h2 => engineLe_trans h1 h2) engineEq_eq_le_both _ hs
  refine hd.imp ?_
  rintro a b ⟨hle, hne⟩
  cases h : engineCmp a b with
  | lt => rfl
  | gt =>
    unfold engineLe at hle
    rw [h] at hle
    exact absurd hle (by decide)
  | eq =>
    rw [engineEq_true_iff.mpr h] at hne
    cases hne

/-- The ordering asserted by the specification's §5: by document, then
line, then message (category not included). -/
def specOrderLe (a b : Diagnostic) : Bool :=
  !(((strCmp a.file.toList b.file.toList).then
    ((cmpN a.line b.line).then (strCmp a.message.toList b.message.toList))) == .gt)

/-- Two parsed documents whose shared table at a common line produces
both a naming warning and an enum-drift warning at the same (file, line). -/
def fileStatusA : ParsedFile :=
  ⟨"A.md", [], [⟨["Status", "api_key"], [["active"]], 5, some "Routing"⟩], [], []⟩

def fileStatusB : ParsedFile :=
  ⟨"B.md", [], [⟨["Status", "apiKey"], [["archived"]], 3, some "Routing"⟩], [], []⟩

def ctxStatus : CheckerContext := ⟨[fileStatusA, fileStatusB], []⟩

/-- C9, counterexample: on a corpus whose naming warning and enum-drift
warning land on the same document and line, the engine's output is not
sorted by (document, line, message) — the comparator sorts by category
before message, and the naming message (starting "Inconsistent") is
ordered after the drift message (starting "Column") it precedes. -/
theorem run_output_not_message_sorted_counterexample :
    ¬ (runWith scopeAll scopeAll ["status", "api_key"] ctxStatus).Pairwise
      (fun a b => specOrderLe a b = true) := by decide

/-- Two documents holding one fuzzy-similar table header each
(`api_config` / `api_configs`). -/
def fileCfgA : ParsedFile := ⟨"A.md", [], [⟨["api_config"], [], 5, none⟩], [], []⟩

def fileCfgB : ParsedFile := ⟨"B.md", [], [⟨["api_configs"], [], 3, none⟩], [], []⟩

def ctxCfg : CheckerContext := ⟨[fileCfgA, fileCfgB], []⟩

/-- C1: the full pipeline is not byte-deterministic across hash-map
iteration orders.  The fuzzy near-miss message interpolates the two
representative spellings in the order the `HashMap` enumerates the
cluster keys, so two runs of the engine on the same corpus whose
groupings enumerate the keys in opposite orders produce different sorted
output ("api_config" and "api_configs" swap places inside the message
text). -/
theorem run_output_depends_on_group_iteration_order :
    runWith scopeAll scopeAll ["api_config", "api_configs"] ctxCfg ≠
      runWith scopeAll scopeAll ["api_configs", "api_config"] ctxCfg := by decide

/-- C4: the table matcher's two-tier rule — a pair of tables matches
exactly when they share at least two headers by normalized key, or share
exactly one and both carry parent section titles whose similarity reaches
0.8.  In particular zero shared headers never match, and two or more
shared headers match regardless of the section titles. -/
theorem tablesMatch_two_tier (a b : TableRef) :
    tablesMatch a b = true ↔
      (2 ≤ sharedHeaderCount a b ∨
        (sharedHeaderCount a b = 1 ∧ ∃ sa sb,
          a.table.parentSection = some sa ∧ b.table.parentSection = some sb ∧
          Frac.leb ⟨8, 10⟩ (jaroWinkler sa sb) = true)) := by
  unfold tablesMatch
  split
  · rename_i h2
    simp [h2]
  · rename_i h2
    split
    · rename_i h1
      have hc : sharedHeaderCount a b = 1 := by omega
      cases hpa : a.table.parentSection with
      | none => simp [hpa, h2]
      | some sa =>
        cases hpb : b.table.parentSection with
        | none => simp [hpa, hpb, h2]
        | some sb => simp [hpa, hpb, h2, hc]
    · rename_i h1
      have hc : sharedHeaderCount a b = 0 := by omega
      simp [h2, hc]

/-- C6 (amended): every suppression filter of the fuzzy near-miss
detector suppresses — no finding is emitted for a key pair when either
representative is date-like, either representative is a YAML `key: value`
line, stripping the leading ordinal prefix from both representatives
leaves identical *non-empty* remainders (case-insensitively), removing
all digits from both leaves identical *non-empty* remainders, or both
clusters occupy the same document set. -/
theorem fuzzy_suppression_filters (files : List ParsedFile)
    (occs : List NameOccurrence) (ka kb : String) (a0 b0 : NameOccurrence)
    (ha : (groupOf occs ka).head? = some a0)
    (hb : (groupOf occs kb).head? = some b0)
    (hsup :
      datePattern a0.original = true ∨ datePattern b0.original = true ∨
      yamlFrontmatter a0.original = true ∨ yamlFrontmatter b0.original = true ∨
      (stripNumberedPrefix a0.original ≠ "" ∧
        eqIgnoreAsciiCase (stripNumberedPrefix a0.original)
          (stripNumberedPrefix b0.original) = true) ∨
      (String.mk (a0.original.toList.filter fun c => !c.isDigit) ≠ "" ∧
        eqIgnoreAsciiCase (String.mk (a0.original.toList.filter fun c => !c.isDigit))
          (String.mk (b0.original.toList.filter fun c => !c.isDigit)) = true) ∨
      sameSetNat ((groupOf occs ka).map (·.fileIdx))
        ((groupOf occs kb).map (·.fileIdx)) = true) :
    pairFindings files occs ka kb = [] := by
  simp only [pairFindings]
  rw [ha, hb]
  split
  · rfl
  · rename_i hsim
    simp only []
    split
    · rfl
    · rename_i hdate
      split
      · rfl
      · rename_i hyaml
        split
        · rfl
        · rename_i hpref
          split
          · rfl
          · rename_i hdig
            split
            · rfl
            · rename_i hdoc
              exfalso
              rw [Bool.not_eq_true, Bool.or_eq_false_iff] at hdate hyaml
              rw [Bool.not_eq_true] at hpref hdig hdoc
              rcases hsup with h | h | h | h | ⟨hne, heq⟩ | ⟨hne, heq⟩ | h
              · rw [h] at hdate; cases hdate.1
              · rw [h] at hdate; cases hdate.2
              · rw [h] at hyaml; cases hyaml.1
              · rw [h] at hyaml; cases hyaml.2
              · have hb : (stripNumberedPrefix a0.original == "") = false := by
                  simp [hne]
                rw [hb, heq] at hpref
                cases hpref
              · have hb2 : (String.mk (a0.original.toList.filter fun c => !c.isDigit)
                    == "") = false := by
                  cases hx : (String.mk (a0.original.toList.filter fun c => !c.isDigit) == "")
                  · rfl
                  · exact absurd (eq_of_beq hx) hne
                rw [hb2, heq] at hdig
                cases hdig
              · rw [h] at hdoc; cases hdoc

/-! ## Membership through sorting and deduplication -/

theorem mem_sortByStable {α : Type} {le : α → α → Bool} {x : α} :
    ∀ {l : List α}, x ∈ sortByStable le l ↔ x ∈ l := by
  intro l
  induction l with
  | nil => simp [sortByStable]
  | cons y ys ih =>
    show x ∈ insertLe le y (sortByStable le ys) ↔ _
    rw [mem_insertLe]
    simp [ih]

theorem dedupAdjGo_subset {α : Type} {eqb : α → α → Bool} {x : α} :
    ∀ {l : List α} {p : α}, x ∈ dedupAdjGo eqb p l → x ∈ l := by
  intro l
  induction l with
  | nil => intro p h; cases h
  | cons b r ih =>
    intro p h
    simp only [dedupAdjGo] at h
    split at h
    · exact List.mem_cons_of_mem _ (ih h)
    · rcases List.mem_cons.mp h with rfl | h
      · simp
      · exact List.mem_cons_of_mem _ (ih h)

theorem mem_dedupAdjGo_beq {α : Type} [BEq α] [LawfulBEq α] {x : α} :
    ∀ {l : List α} {p : α}, x ∈ l → x ∈ dedupAdjGo (· == ·) p l ∨ x = p := by
  intro l
  induction l with
  | nil => intro p h; cases h
  | cons b r ih =>
    intro p h
    simp only [dedupAdjGo]
    split
    · rename_i hb
      have hbp : b = p := eq_of_beq hb
      rcases List.mem_cons.mp h with rfl | h
      · exact Or.inr hbp
      · exact ih h
    · rcases List.mem_cons.mp h with rfl | h
      · exact Or.inl (by simp)
      · rcases ih (p := b) h with hin | rfl
        · exact Or.inl (List.mem_cons_of_mem _ hin)
        · exact Or.inl (by simp)

theorem mem_dedupAdj_beq {α : Type} [BEq α] [LawfulBEq α] {x : α} :
    ∀ {l : List α}, x ∈ dedupAdj (· == ·) l ↔ x ∈ l := by
  intro l
  cases l with
  | nil => simp [dedupAdj]
  | cons a r =>
    simp only [dedupAdj]
    constructor
    · intro h
      rcases List.mem_cons.mp h with rfl | h
      · simp
      · exact List.mem_cons_of_mem _ (dedupAdjGo_subset h)
    · intro h
      rcases List.mem_cons.mp h with rfl | h
      · simp
      · rcases mem_dedupAdjGo_beq (p := a) h with hin | rfl
        · exact List.mem_cons_of_mem _ hin
        · simp

theorem mem_sortedDedup {x : String} {l : List String} :
    x ∈ sortedDedup l ↔ x ∈ l := by
  unfold sortedDedup
  rw [mem_dedupAdj_beq, mem_sortByStable]

theorem strCmp_gt_iff_lt {a b : List Char} :
    strCmp a b = .gt ↔ strCmp b a = .lt := by
  have hswap := strCmp_lawful.swap_eq a b
  constructor
  · intro hg
    rw [hg] at hswap
    cases h : strCmp b a <;> rw [h] at hswap
    · exact absurd hswap (by decide)
    · exact absurd hswap (by decide)
  · intro hl
    rw [hl] at hswap
    exact hswap

theorem strLeB_total (a b : String) : (strLeB a b || strLeB b a) = true := by
  unfold strLeB
  cases h : strCmp a.toList b.toList with
  | lt => rfl
  | eq => rfl
  | gt =>
    have hba : strCmp b.toList a.toList = .lt := strCmp_gt_iff_lt.mp h
    rw [hba]
    rfl

theorem strLeB_trans {a b c : String} (h1 : strLeB a b = true)
    (h2 : strLeB b c = true) : strLeB a c = true := by
  unfold strLeB at *
  cases hab : strCmp a.toList b.toList with
  | gt =>
    rw [hab] at h1
    exact absurd h1 (by decide)
  | lt =>
    cases hbc : strCmp b.toList c.toList with
    | gt =>
      rw [hbc] at h2
      exact absurd h2 (by decide)
    | lt =>
      rw [strCmp_lawful.lt_trans hab hbc]
      rfl
    | eq =>
      have h3 : strCmp a.toList c.toList = strCmp a.toList b.toList :=
        (strCmp_lawful.eq_right hbc).symm
      rw [h3, hab]
      rfl
  | eq =>
    have h3 : strCmp a.toList c.toList = strCmp b.toList c.toList :=
      strCmp_lawful.eq_left hab
    rw [h3]
    exact h2

theorem strBeq_eq_le_both (a b : String) : (a == b) = (strLeB a b && strLeB b a) := by
  cases h : strCmp a.toList b.toList with
  | eq =>
    have he : a = b := stringToList_inj (strCmp_eq_iff.mp h)
    subst he
    have hh : strCmp a.toList a.toList = .eq := strCmp_eq_iff.mpr rfl
    unfold strLeB
    rw [hh, show (a == a) = true by simp]
    decide
  | lt =>
    have hne : (a == b) = false := by
      cases hx : a == b
      · rfl
      · have hab := eq_of_beq hx
        subst hab
        rw [strCmp_eq_iff.mpr rfl] at h
        cases h
    have hba : strCmp b.toList a.toList = .gt := by
      have := strCmp_gt_iff_lt (a := b.toList) (b := a.toList)
      rw [this]
      exact h
    unfold strLeB
    rw [hne, h, hba]
    rfl
  | gt =>
    have hne : (a == b) = false := by
      cases hx : a == b
      · rfl
      · have hab := eq_of_beq hx
        subst hab
        rw [strCmp_eq_iff.mpr rfl] at h
        cases h
    unfold strLeB
    rw [hne, h]
    rfl

theorem sortedDedup_strict (l : List String) :
    (sortedDedup l).Pairwise (fun a b => strCmp a.toList b.toList = .lt) := by
  unfold sortedDedup
  have hs := sortByStable_pairwise strLeB_total (fun h1 h2 => strLeB_trans h1 h2) l
  have hd := @dedupAdj_strict String strLeB (· == ·)
    (fun h1 h2 => strLeB_trans h1 h2) strBeq_eq_le_both _ hs
  refine hd.imp ?_
  rintro a b ⟨hle, hne⟩
  cases h : strCmp a.toList b.toList with
  | lt => rfl
  | gt =>
    unfold strLeB at hle
    rw [h] at hle
    exact absurd hle (by decide)
  | eq =>
    have hab : a = b := stringToList_inj (strCmp_eq_iff.mp h)
    subst hab
    simp at hne

theorem two_le_sortedDedup_iff {l : List String} :
    2 ≤ (sortedDedup l).length ↔ ∃ a ∈ l, ∃ b ∈ l, a ≠ b := by
  constructor
  · intro h
    cases hsd : sortedDedup l with
    | nil => rw [hsd] at h; simp at h
    | cons x t =>
      cases t with
      | nil => rw [hsd] at h; simp at h
      | cons y rest =>
        have hpw := sortedDedup_strict l
        rw [hsd, List.pairwise_cons] at hpw
        have hxy : strCmp x.toList y.toList = .lt := hpw.1 y (by simp)
        have hx : x ∈ l := mem_sortedDedup.mp (by rw [hsd]; simp)
        have hy : y ∈ l := mem_sortedDedup.mp (by rw [hsd]; simp)
        refine ⟨x, hx, y, hy, ?_⟩
        rintro rfl
        rw [strCmp_eq_iff.mpr rfl] at hxy
        cases hxy
  · rintro ⟨a, ha, b, hb, hab⟩
    have ha2 : a ∈ sortedDedup l := mem_sortedDedup.mpr ha
    have hb2 : b ∈ sortedDedup l := mem_sortedDedup.mpr hb
    cases hsd : sortedDedup l with
    | nil => rw [hsd] at ha2; cases ha2
    | cons x t =>
      cases t with
      | nil =>
        rw [hsd, List.mem_singleton] at ha2 hb2
        exact absurd (ha2.trans hb2.symm) hab
      | cons y rest => simp [hsd, List.length_cons]

theorem exists_pair_map_iff {α β : Type} {f : α → β} {l : List α} :
    (∃ a ∈ l.map f, ∃ b ∈ l.map f, a ≠ b) ↔
      (∃ o1 ∈ l, ∃ o2 ∈ l, f o1 ≠ f o2) := by
  constructor
  · rintro ⟨a, ha, b, hb, hab⟩
    obtain ⟨o1, h1, rfl⟩ := List.mem_map.mp ha
    obtain ⟨o2, h2, rfl⟩ := List.mem_map.mp hb
    exact ⟨o1, h1, o2, h2, hab⟩
  · rintro ⟨o1, h1, o2, h2, hne⟩
    exact ⟨f o1, List.mem_map_of_mem _ h1, f o2, List.mem_map_of_mem _ h2, hne⟩

theorem exists_not_mem_of_all_contains_false {la lb : List Nat}
    (h : la.all (fun a => lb.contains a) = false) : ∃ x ∈ la, x ∉ lb := by
  by_contra hc
  push_neg at hc
  have hall : la.all (fun a => lb.contains a) = true := by
    rw [List.all_eq_true]
    intro a haa
    exact List.elem_iff.mpr (hc a haa)
  rw [hall] at h
  cases h

theorem sameSetNat_false_exists {la lb : List Nat} (h : sameSetNat la lb = false)
    (ha : la ≠ []) (hb : lb ≠ []) :
    ∃ x ∈ la ++ lb, ∃ y ∈ la ++ lb, x ≠ y := by
  unfold sameSetNat at h
  have h2 : la.all (fun a => lb.contains a) = false ∨
      lb.all (fun a => la.contains a) = false := by
    cases h1 : la.all (fun a => lb.contains a)
    · exact Or.inl rfl
    · cases h3 : lb.all (fun a => la.contains a)
      · exact Or.inr rfl
      · rw [h1, h3] at h; cases h
  rcases h2 with h2 | h2
  · obtain ⟨x, hx, hxnot⟩ := exists_not_mem_of_all_contains_false h2
    obtain ⟨y, hy⟩ : ∃ y, y ∈ lb := by
      cases lb with
      | nil => exact absurd rfl hb
      | cons z zs => exact ⟨z, by simp⟩
    refine ⟨x, List.mem_append_left _ hx, y, List.mem_append_right _ hy, ?_⟩
    rintro rfl
    exact hxnot hy
  · obtain ⟨x, hx, hxnot⟩ := exists_not_mem_of_all_contains_false h2
    obtain ⟨y, hy⟩ : ∃ y, y ∈ la := by
      cases la with
      | nil => exact absurd rfl ha
      | cons z zs => exact ⟨z, by simp⟩
    refine ⟨x, List.mem_append_right _ hx, y, List.mem_append_left _ hy, ?_⟩
    rintro rfl
    exact hxnot hy

/-- C2: the cross-document hard filter.  An exact-variant cluster only
emits when two of its occurrences come from different documents; a fuzzy
key pair only emits when the union of the two clusters' occurrences
spans two different documents; and the drift analyzer only ever runs
`check_drift` on table pairs from different documents. -/
theorem findings_require_two_documents :
    (∀ (files : List ParsedFile) (g : List NameOccurrence),
      clusterFindings files g ≠ [] →
        ∃ o1 ∈ g, ∃ o2 ∈ g, o1.fileIdx ≠ o2.fileIdx) ∧
    (∀ (files : List ParsedFile) (occs : List NameOccurrence) (ka kb : String),
      pairFindings files occs ka kb ≠ [] →
        ∃ o1 ∈ groupOf occs ka ++ groupOf occs kb,
          ∃ o2 ∈ groupOf occs ka ++ groupOf occs kb, o1.fileIdx ≠ o2.fileIdx) ∧
    (∀ (scope : String → Bool) (ctx : CheckerContext) (p : TableRef × TableRef),
      p ∈ contributingPairs scope ctx → p.1.fileIdx ≠ p.2.fileIdx) := by
  refine ⟨?_, ?_, ?_⟩
  · intro files g hne
    cases g with
    | nil => simp [clusterFindings] at hne
    | cons g0 rest =>
      simp only [clusterFindings] at hne
      split at hne
      · exact absurd rfl hne
      · split at hne
        · exact absurd rfl hne
        · split at hne
          · exact absurd rfl hne
          · rename_i hany
            have hany2 : ((g0 :: rest).any fun o => o.fileIdx != g0.fileIdx) = true := by
              cases hx : ((g0 :: rest).any fun o => o.fileIdx != g0.fileIdx)
              · rw [hx] at hany
                exact absurd rfl hany
              · rfl
            obtain ⟨o, ho, hob⟩ := List.any_eq_true.mp hany2
            exact ⟨o, ho, g0, by simp, bne_iff_ne.mp hob⟩
  · intro files occs ka kb hne
    simp only [pairFindings] at hne
    split at hne
    · exact absurd rfl hne
    · split at hne
      · rename_i a0 b0 hha hhb
        split at hne
        · exact absurd rfl hne
        · split at hne
          · exact absurd rfl hne
          · split at hne
            · exact absurd rfl hne
            · split at hne
              · exact absurd rfl hne
              · split at hne
                · exact absurd rfl hne
                · rename_i hdoc
                  have hdoc2 : sameSetNat ((groupOf occs ka).map (·.fileIdx))
                      ((groupOf occs kb).map (·.fileIdx)) = false := by
                    cases hx : sameSetNat ((groupOf occs ka).map (·.fileIdx))
                        ((groupOf occs kb).map (·.fileIdx))
                    · rfl
                    · rw [hx] at hdoc
                      exact absurd rfl hdoc
                  have hga : groupOf occs ka ≠ [] := by
                    intro hk
                    rw [hk] at hha
                    cases hha
                  have hgb : groupOf occs kb ≠ [] := by
                    intro hk
                    rw [hk] at hhb
                    cases hhb
                  have hmapa : (groupOf occs ka).map (·.fileIdx) ≠ [] := by
                    simpa using hga
                  have hmapb : (groupOf occs kb).map (·.fileIdx) ≠ [] := by
                    simpa using hgb
                  obtain ⟨x, hx, y, hy, hxy⟩ :=
                    sameSetNat_false_exists hdoc2 hmapa hmapb
                  rw [← List.map_append] at hx hy
                  obtain ⟨o1, ho1, rfl⟩ := List.mem_map.mp hx
                  obtain ⟨o2, ho2, rfl⟩ := List.mem_map.mp hy
                  exact ⟨o1, ho1, o2, ho2, hxy⟩
      · exact absurd rfl hne
  · intro scope ctx p hp
    unfold contributingPairs at hp
    rw [List.mem_filter] at hp
    intro he
    have h2 := hp.2
    rw [he] at h2
    simp at h2

/-- The `api_key` / `apiKey` corpus of the checker's unit tests. -/
def fileKeyA : ParsedFile := ⟨"A.md", [], [⟨["api_key"], [], 5, none⟩], [], []⟩

def fileKeyB : ParsedFile := ⟨"B.md", [], [⟨["apiKey"], [], 3, none⟩], [], []⟩

/-- The two table refs the drift checker builds on `ctxStatus`. -/
def tRefStatusA : TableRef :=
  ⟨⟨["Status", "api_key"], [["active"]], 5, some "Routing"⟩, 0, ["status", "api_key"]⟩

def tRefStatusB : TableRef :=
  ⟨⟨["Status", "apiKey"], [["archived"]], 3, some "Routing"⟩, 1, ["status", "api_key"]⟩

/-- Closed instances of `findings_require_two_documents`, with its
hypotheses discharged on emitting corpora. -/
theorem findings_require_two_documents_witness :
    (∃ o1 ∈ groupOf (collectOccurrences scopeAll [fileKeyA, fileKeyB]) "api_key",
      ∃ o2 ∈ groupOf (collectOccurrences scopeAll [fileKeyA, fileKeyB]) "api_key",
        o1.fileIdx ≠ o2.fileIdx) ∧
    (∃ o1 ∈ groupOf (collectOccurrences scopeAll ctxCfg.files) "api_config" ++
        groupOf (collectOccurrences scopeAll ctxCfg.files) "api_configs",
      ∃ o2 ∈ groupOf (collectOccurrences scopeAll ctxCfg.files) "api_config" ++
        groupOf (collectOccurrences scopeAll ctxCfg.files) "api_configs",
        o1.fileIdx ≠ o2.fileIdx) ∧
    (tRefStatusA, tRefStatusB).1.fileIdx ≠ (tRefStatusA, tRefStatusB).2.fileIdx :=
  ⟨findings_require_two_documents.1 [fileKeyA, fileKeyB]
      (groupOf (collectOccurrences scopeAll [fileKeyA, fileKeyB]) "api_key") (by decide),
   findings_require_two_documents.2.1 ctxCfg.files
      (collectOccurrences scopeAll ctxCfg.files) "api_config" "api_configs" (by decide),
   findings_require_two_documents.2.2 scopeAll ctxStatus
      (tRefStatusA, tRefStatusB) (by decide)⟩

/-- C3: the exact-variant emission condition.  A cluster emits findings
exactly when it holds two distinct literal spellings, two spellings that
still differ after lowercasing (so the variants do not differ only by
case), and two occurrences from distinct documents; and when it emits,
it emits one warning per occurrence whose message names all distinct
spellings (the `BTreeSet`'s ascending, duplicate-free enumeration of the
cluster's spellings, shown below to be exactly the cluster's spelling
set in strictly increasing order). -/
theorem cluster_emission_characterization (files : List ParsedFile)
    (g : List NameOccurrence) :
    (clusterFindings files g ≠ [] ↔
      ((∃ o1 ∈ g, ∃ o2 ∈ g, o1.original ≠ o2.original) ∧
       (∃ o1 ∈ g, ∃ o2 ∈ g, toLowerStr o1.original ≠ toLowerStr o2.original) ∧
       (∃ o1 ∈ g, ∃ o2 ∈ g, o1.fileIdx ≠ o2.fileIdx))) ∧
    (clusterFindings files g ≠ [] →
      clusterFindings files g = g.map (fun occ =>
        ⟨pathAt files occ.fileIdx, occ.line, .warning, .namingInconsistency,
          "Inconsistent naming: "
            ++ joinSep " vs " ((sortedDedup (g.map (·.original))).map quote)
            ++ " refer to the same concept",
          some ("Standardize to one form: use either \""
            ++ ((sortedDedup (g.map (·.original))).get? 0).getD ""
            ++ "\" or \"" ++ ((sortedDedup (g.map (·.original))).get? 1).getD ""
            ++ "\" consistently")⟩)) ∧
    (∀ s, s ∈ sortedDedup (g.map (·.original)) ↔ ∃ o ∈ g, o.original = s) ∧
    (sortedDedup (g.map (·.original))).Pairwise
      (fun a b => strCmp a.toList b.toList = .lt) := by
  have hmem : ∀ s, s ∈ sortedDedup (g.map (·.original)) ↔ ∃ o ∈ g, o.original = s := by
    intro s
    rw [mem_sortedDedup]
    constructor
    · intro h
      exact List.mem_map.mp h
    · rintro ⟨o, ho, rfl⟩
      exact List.mem_map_of_mem _ ho
  have hb1 : 2 ≤ (sortedDedup (g.map (·.original))).length ↔
      (∃ o1 ∈ g, ∃ o2 ∈ g, o1.original ≠ o2.original) := by
    rw [two_le_sortedDedup_iff]
    exact exists_pair_map_iff
  have hb2 : 2 ≤ (sortedDedup ((sortedDedup (g.map (·.original))).map toLowerStr)).length ↔
      (∃ o1 ∈ g, ∃ o2 ∈ g, toLowerStr o1.original ≠ toLowerStr o2.original) := by
    rw [two_le_sortedDedup_iff, exists_pair_map_iff]
    constructor
    · rintro ⟨s1, hs1, s2, hs2, hne⟩
      obtain ⟨o1, ho1, rfl⟩ := (hmem s1).mp hs1
      obtain ⟨o2, ho2, rfl⟩ := (hmem s2).mp hs2
      exact ⟨o1, ho1, o2, ho2, hne⟩
    · rintro ⟨o1, ho1, o2, ho2, hne⟩
      exact ⟨o1.original, (hmem o1.original).mpr ⟨o1, ho1, rfl⟩,
        o2.original, (hmem o2.original).mpr ⟨o2, ho2, rfl⟩, hne⟩
  refine ⟨?_, ?_, hmem, sortedDedup_strict _⟩
  · cases g with
    | nil =>
      constructor
      · intro h
        exact absurd rfl h
      · rintro ⟨⟨o1, ho1, _⟩, _, _⟩
        cases ho1
    | cons g0 rest =>
      have hb3 : ((g0 :: rest).any fun o => o.fileIdx != g0.fileIdx) = true ↔
          (∃ o1 ∈ g0 :: rest, ∃ o2 ∈ g0 :: rest, o1.fileIdx ≠ o2.fileIdx) := by
        constructor
        · intro h
          obtain ⟨o, ho, hob⟩ := List.any_eq_true.mp h
          exact ⟨o, ho, g0, by simp, bne_iff_ne.mp hob⟩
        · rintro ⟨o1, ho1, o2, ho2, hne⟩
          rw [List.any_eq_true]
          by_cases h1 : o1.fileIdx = g0.fileIdx
          · refine ⟨o2, ho2, ?_⟩
            rw [bne_iff_ne]
            intro hc
            rw [h1, hc] at hne
            exact hne rfl
          · exact ⟨o1, ho1, bne_iff_ne.mpr h1⟩
      simp only [clusterFindings]
      split
      · rename_i h1
        constructor
        · intro h
          exact absurd rfl h
        · rintro ⟨hc1, _, _⟩
          rw [← hb1] at hc1
          omega
      · rename_i h1
        split
        · rename_i h2
          constructor
          · intro h
            exact absurd rfl h
          · rintro ⟨_, hc2, _⟩
            rw [← hb2] at hc2
            omega
        · rename_i h2
          split
          · rename_i h3
            constructor
            · intro h
              exact absurd rfl h
            · rintro ⟨_, _, hc3⟩
              rw [← hb3] at hc3
              rw [hc3] at h3
              exact absurd h3 (by decide)
          · rename_i h3
            constructor
            · intro _
              refine ⟨hb1.mp (by omega), hb2.mp (by omega), ?_⟩
              apply hb3.mp
              cases hx : ((g0 :: rest).any fun o => o.fileIdx != g0.fileIdx)
              · rw [hx] at h3
                simp at h3
              · rfl
            · intro _
              simp
  · intro hne
    cases g with
    | nil => simp [clusterFindings] at hne
    | cons g0 rest =>
      simp only [clusterFindings] at hne ⊢
      split at hne
      · exact absurd rfl hne
      · split at hne
        · exact absurd rfl hne
        · split at hne
          · exact absurd rfl hne
          · rename_i h1 h2 h3
            rw [if_neg h1, if_neg h2, if_neg h3]

/-- A closed instance of `cluster_emission_characterization`: the
emission equality evaluated on the `api_key` / `apiKey` corpus. -/
theorem cluster_emission_characterization_witness :
    clusterFindings [fileKeyA, fileKeyB]
        (groupOf (collectOccurrences scopeAll [fileKeyA, fileKeyB]) "api_key") =
      (groupOf (collectOccurrences scopeAll [fileKeyA, fileKeyB]) "api_key").map
        (fun occ =>
          ⟨pathAt [fileKeyA, fileKeyB] occ.fileIdx, occ.line, .warning,
            .namingInconsistency,
            "Inconsistent naming: "
              ++ joinSep " vs " ((sortedDedup
                ((groupOf (collectOccurrences scopeAll [fileKeyA, fileKeyB])
                  "api_key").map (·.original))).map quote)
              ++ " refer to the same concept",
            some ("Standardize to one form: use either \""
              ++ ((sortedDedup ((groupOf (collectOccurrences scopeAll
                  [fileKeyA, fileKeyB]) "api_key").map (·.original))).get? 0).getD ""
              ++ "\" or \"" ++ ((sortedDedup ((groupOf (collectOccurrences scopeAll
                  [fileKeyA, fileKeyB]) "api_key").map (·.original))).get? 1).getD ""
              ++ "\" consistently")⟩) :=
  (cluster_emission_characterization [fileKeyA, fileKeyB]
    (groupOf (collectOccurrences scopeAll [fileKeyA, fileKeyB]) "api_key")).2.1
    (by decide)

/-- The two date-titled documents of the specification's date-suppression
example. -/
def fileDateA : ParsedFile := ⟨"A.md", [⟨2, "Dec 5, 2025", 5, 5⟩], [], [], []⟩

def fileDateB : ParsedFile := ⟨"B.md", [⟨2, "Dec 4, 2025", 3, 3⟩], [], [], []⟩

/-- A closed instance of `fuzzy_suppression_filters`: the date filter
suppresses the highly similar pair "Dec 5, 2025" / "Dec 4, 2025". -/
theorem fuzzy_suppression_filters_witness :
    pairFindings [fileDateA, fileDateB]
      (collectOccurrences scopeAll [fileDateA, fileDateB])
      "dec_5,_2025" "dec_4,_2025" = [] :=
  fuzzy_suppression_filters [fileDateA, fileDateB]
    (collectOccurrences scopeAll [fileDateA, fileDateB])
    "dec_5,_2025" "dec_4,_2025" ⟨"Dec 5, 2025", 0, 5⟩ ⟨"Dec 4, 2025", 1, 3⟩
    (by decide) (by decide) (Or.inl (by decide))

/-- Two documents whose section titles are pure ordinal prefixes with
different digit patterns ("Step 41:" / "step  42:", the latter with two
spaces). -/
def fileStepA : ParsedFile := ⟨"A.md", [⟨2, "Step 41:", 1, 1⟩], [], [], []⟩

def fileStepB : ParsedFile := ⟨"B.md", [⟨2, "step  42:", 1, 1⟩], [], [], []⟩

/-- C6, counterexample: the claim's numbered-prefix filter (identical
remainders after stripping the ordinal prefix, with no non-emptiness
caveat) applies to the pair "Step 41:" / "step  42:" — both strip to the
empty remainder — and their keys are 0.95-similar, yet the checker emits
info findings for the pair: the code's filter additionally requires the
stripped remainder to be non-empty, and no other filter catches the
pair. -/
theorem fuzzy_prefix_suppression_counterexample :
    eqIgnoreAsciiCase (stripNumberedPrefix "Step 41:")
      (stripNumberedPrefix "step  42:") = true ∧
    normalize "Step 41:" = "step_41:" ∧
    normalize "step  42:" = "step_42:" ∧
    Frac.leb ⟨95, 100⟩ (jaroWinkler "step_41:" "step_42:") = true ∧
    (namingCheckWith scopeAll ["step_41:", "step_42:"]
      [fileStepA, fileStepB]).any (fun d => d.severity == Severity.info) = true := by
  decide

/-! ## C5: column drift as a tolerant symmetric difference -/

/-- The claim's notion of a cell value below a column: a non-empty
trimmed cell of some row — a row shorter than the header list simply has
no cell there and contributes nothing. -/
def cellValue (t : Table) (col : Nat) (v : String) : Prop :=
  ¬ v = "" ∧ ∃ row ∈ t.rows, ∃ cell, row.get? col = some cell ∧ trimStr cell = v

theorem mem_dedupKeepFirstAux {x : String} (l : List String) :
    ∀ seen : List String,
      (x ∈ dedupKeepFirstAux seen l ↔ (x ∈ l ∧ ¬ x ∈ seen)) := by
  induction l with
  | nil =>
    intro seen
    simp [dedupKeepFirstAux]
  | cons y ys ih =>
    intro seen
    unfold dedupKeepFirstAux
    split
    · rename_i hy
      have hymem : y ∈ seen := List.elem_iff.mp hy
      rw [ih seen]
      constructor
      · rintro ⟨hx, hns⟩
        exact ⟨List.mem_cons_of_mem _ hx, hns⟩
      · rintro ⟨hx, hns⟩
        rcases List.mem_cons.mp hx with rfl | hx
        · exact absurd hymem hns
        · exact ⟨hx, hns⟩
    · rename_i hy
      have hynmem : ¬ y ∈ seen := fun hm => hy (List.elem_iff.mpr hm)
      rw [List.mem_cons, ih (seen ++ [y])]
      constructor
      · rintro (rfl | ⟨hx, hns⟩)
        · exact ⟨List.mem_cons_self _ _, hynmem⟩
        · exact ⟨List.mem_cons_of_mem _ hx,
            fun hm => hns (List.mem_append_left _ hm)⟩
      · rintro ⟨hor, hns⟩
        rcases List.mem_cons.mp hor with rfl | hx
        · exact Or.inl rfl
        · by_cases hxy : x = y
          · exact Or.inl hxy
          · refine Or.inr ⟨hx, fun hm => ?_⟩
            rcases List.mem_append.mp hm with hm | hm
            · exact hns hm
            · exact hxy (List.mem_singleton.mp hm)

theorem mem_dedupKeepFirst {x : String} {l : List String} :
    x ∈ dedupKeepFirst l ↔ x ∈ l := by
  unfold dedupKeepFirst
  rw [mem_dedupKeepFirstAux l []]
  simp

/-- Membership in `collect_values` is exactly the claim's cell-value
predicate. -/
theorem mem_collectValues {t : Table} {col : Nat} {v : String} :
    v ∈ collectValues t col ↔ cellValue t col v := by
  unfold collectValues cellValue
  rw [mem_dedupKeepFirst, List.mem_filter, List.mem_map]
  constructor
  · rintro ⟨⟨w, hw, rfl⟩, hne⟩
    obtain ⟨row, hrow, hget⟩ := List.mem_filterMap.mp hw
    refine ⟨?_, row, hrow, w, hget, rfl⟩
    intro h0
    rw [h0] at hne
    simp at hne
  · rintro ⟨hne, row, hrow, cell, hget, rfl⟩
    refine ⟨⟨cell, List.mem_filterMap.mpr ⟨row, hrow, hget⟩, rfl⟩, ?_⟩
    cases hx : (trimStr cell == "") with
    | false => rfl
    | true => exact absurd (eq_of_beq hx) hne

theorem driftSide_eq_nil {files : List ParsedFile} {src other : TableRef}
    {col : Nat} {diff : List String} :
    driftSide files src other col diff = [] ↔ diff = [] := by
  unfold driftSide
  split
  · rename_i h
    simp_all [List.isEmpty_iff]
  · rename_i h
    constructor
    · intro hc
      cases hc
    · intro hd
      rw [hd] at h
      exact absurd rfl h

theorem strContains_iff_mem {x : String} {l : List String} :
    l.contains x = true ↔ x ∈ l := by
  constructor
  · intro h
    exact List.elem_iff.mp h
  · intro h
    exact List.elem_iff.mpr h

theorem filter_not_contains_eq_nil {la lb : List String} :
    ((la.filter fun v => !(lb.contains v)) = []) ↔ ∀ v ∈ la, v ∈ lb := by
  rw [List.filter_eq_nil_iff]
  constructor
  · intro h v hv
    have hc := h v hv
    cases hx : lb.contains v with
    | true => exact strContains_iff_mem.mp hx
    | false =>
      rw [hx] at hc
      exact absurd rfl hc
  · intro h v hv
    have hc : lb.contains v = true := strContains_iff_mem.mpr (h v hv)
    rw [hc]
    decide

/-- C5: column drift is a symmetric difference with absent cells
tolerated.  For one shared column: a value participates exactly when it
is a non-empty trimmed cell value (missing cells of short rows are
silently skipped); no finding is emitted exactly when the two value sets
are equal; every emission is an enum-drift warning; and the emissions
are one warning at table `a`'s document and table line listing the
values only `a` has, followed by the mirrored warning at table `b`'s
document and line. -/
theorem column_drift_characterization (files : List ParsedFile)
    (a b : TableRef) (colA colB : Nat) :
    (∀ v, v ∈ collectValues a.table colA ↔ cellValue a.table colA v) ∧
    (driftColumn files a b colA colB = [] ↔
      ∀ v, v ∈ collectValues a.table colA ↔ v ∈ collectValues b.table colB) ∧
    (∀ d ∈ driftColumn files a b colA colB,
      d.severity = .warning ∧ d.category = .enumDrift) ∧
    (driftColumn files a b colA colB =
      (if ((collectValues a.table colA).filter fun v =>
          !((collectValues b.table colB).contains v)).isEmpty then [] else
        [⟨pathAt files a.fileIdx, a.table.line, .warning, .enumDrift,
          "Column \"" ++ ((a.table.headers.get? colA).getD "") ++ "\" has values "
            ++ formatValues ((collectValues a.table colA).filter fun v =>
                !((collectValues b.table colB).contains v))
            ++ " not found in " ++ fileNameOf (pathAt files b.fileIdx),
          some "Align the value sets across files or document why they differ"⟩])
      ++
      (if ((collectValues b.table colB).filter fun v =>
          !((collectValues a.table colA).contains v)).isEmpty then [] else
        [⟨pathAt files b.fileIdx, b.table.line, .warning, .enumDrift,
          "Column \"" ++ ((b.table.headers.get? colB).getD "") ++ "\" has values "
            ++ formatValues ((collectValues b.table colB).filter fun v =>
                !((collectValues a.table colA).contains v))
            ++ " not found in " ++ fileNameOf (pathAt files a.fileIdx),
          some "Align the value sets across files or document why they differ"⟩])) := by
  refine ⟨fun v => mem_collectValues, ?_, ?_, rfl⟩
  · simp only [driftColumn]
    rw [List.append_eq_nil, driftSide_eq_nil, driftSide_eq_nil,
      filter_not_contains_eq_nil, filter_not_contains_eq_nil]
    constructor
    · rintro ⟨hab, hba⟩ v
      exact ⟨fun hv => hab v hv, fun hv => hba v hv⟩
    · intro h
      exact ⟨fun v hv => (h v).mp hv, fun v hv => (h v).mpr hv⟩
  · intro d hd
    simp only [driftColumn, driftSide] at hd
    rcases List.mem_append.mp hd with h | h <;>
    · split at h
      · cases h
      · rw [List.mem_singleton] at h
        subst h
        exact ⟨rfl, rfl⟩

/-- Closed instance of `column_drift_characterization` on the Status
corpus: the two value sets differ, so by the characterization the drift
emissions cannot be empty. -/
theorem column_drift_characterization_witness :
    ¬ driftColumn [fileStatusA, fileStatusB] tRefStatusA tRefStatusB 0 0 = [] :=
  fun h => absurd
    (((column_drift_characterization [fileStatusA, fileStatusB]
        tRefStatusA tRefStatusB 0 0).2.1.mp h) "active")
    (by decide)

/-! ## C10: historical documents and the two checkers -/

/-- A parsed file with its tables removed; path, sections, suppressions
and raw lines kept. -/
def blankTables (f : ParsedFile) : ParsedFile :=
  ⟨f.path, f.sections, [], f.suppressComments, f.rawLines⟩

/-- The corpus with every historical file's tables removed, positions
and paths preserved. -/
def blankHistoricalFrom (hist : List Nat) : Nat → List ParsedFile → List ParsedFile
  | _, [] => []
  | n, f :: fs =>
    (if hist.contains n then blankTables f else f) :: blankHistoricalFrom hist (n + 1) fs

def blankHistorical (files : List ParsedFile) (hist : List Nat) : List ParsedFile :=
  blankHistoricalFrom hist 0 files

/-- The body of `tableRefsOf`, over an explicit enumerated list. -/
def tableRefsFromAux (scope : String → Bool) (hist : List Nat)
    (l : List (Nat × ParsedFile)) : List TableRef :=
  ((l.filter fun p => !(hist.contains p.1) && scope p.2.path).map fun p =>
    p.2.tables.map fun t => ⟨t, p.1, t.headers.map normalize⟩).flatten

theorem tableRefsFromAux_cons_pos (scope : String → Bool) (hist : List Nat)
    (p : Nat × ParsedFile) (l : List (Nat × ParsedFile))
    (h : (!(hist.contains p.1) && scope p.2.path) = true) :
    tableRefsFromAux scope hist (p :: l) =
      (p.2.tables.map fun t => ⟨t, p.1, t.headers.map normalize⟩)
        ++ tableRefsFromAux scope hist l := by
  unfold tableRefsFromAux
  have hf : List.filter (fun q => !(hist.contains q.1) && scope q.2.path) (p :: l) =
      p :: List.filter (fun q => !(hist.contains q.1) && scope q.2.path) l :=
    List.filter_cons_of_pos h
  rw [hf]
  rfl

theorem tableRefsFromAux_cons_neg (scope : String → Bool) (hist : List Nat)
    (p : Nat × ParsedFile) (l : List (Nat × ParsedFile))
    (h : (!(hist.contains p.1) && scope p.2.path) = false) :
    tableRefsFromAux scope hist (p :: l) = tableRefsFromAux scope hist l := by
  unfold tableRefsFromAux
  have hn : ¬ ((!(hist.contains p.1) && scope p.2.path) = true) := by
    rw [h]
    decide
  have hf : List.filter (fun q => !(hist.contains q.1) && scope q.2.path) (p :: l) =
      List.filter (fun q => !(hist.contains q.1) && scope q.2.path) l :=
    List.filter_cons_of_neg hn
  rw [hf]

theorem tableRefsFromAux_blank (scope : String → Bool) (hist : List Nat)
    (files : List ParsedFile) : ∀ n : Nat,
    tableRefsFromAux scope hist (List.enumFrom n files) =
      tableRefsFromAux scope [] (List.enumFrom n (blankHistoricalFrom hist n files)) := by
  induction files with
  | nil =>
    intro n
    rfl
  | cons f fs ih =>
    intro n
    show tableRefsFromAux scope hist ((n, f) :: List.enumFrom (n + 1) fs) =
      tableRefsFromAux scope []
        ((n, if hist.contains n then blankTables f else f) ::
          List.enumFrom (n + 1) (blankHistoricalFrom hist (n + 1) fs))
    cases hh : hist.contains n with
    | true =>
      rw [if_pos rfl]
      cases hs : scope f.path with
      | true =>
        rw [tableRefsFromAux_cons_neg scope hist (n, f) _ (by rw [hh, hs]; rfl),
          tableRefsFromAux_cons_pos scope [] (n, blankTables f) _
            (by show (!(([] : List Nat).contains n) && scope f.path) = true
                rw [hs]; rfl)]
        exact ih (n + 1)
      | false =>
        rw [tableRefsFromAux_cons_neg scope hist (n, f) _ (by rw [hh, hs]; rfl),
          tableRefsFromAux_cons_neg scope [] (n, blankTables f) _
            (by show (!(([] : List Nat).contains n) && scope f.path) = false
                rw [hs]; rfl)]
        exact ih (n + 1)
    | false =>
      rw [if_neg (by decide)]
      cases hs : scope f.path with
      | true =>
        rw [tableRefsFromAux_cons_pos scope hist (n, f) _ (by rw [hh, hs]; rfl),
          tableRefsFromAux_cons_pos scope [] (n, f) _ (by rw [hs]; rfl),
          ih (n + 1)]
      | false =>
        rw [tableRefsFromAux_cons_neg scope hist (n, f) _ (by rw [hh, hs]; rfl),
          tableRefsFromAux_cons_neg scope [] (n, f) _ (by rw [hs]; rfl)]
        exact ih (n + 1)

theorem tableRefsOf_blankHistorical (scope : String → Bool)
    (files : List ParsedFile) (hist : List Nat) :
    tableRefsOf scope ⟨files, hist⟩ =
      tableRefsOf scope ⟨blankHistorical files hist, []⟩ :=
  tableRefsFromAux_blank scope hist files 0

theorem pathAt_blankHistoricalFrom (hist : List Nat) (files : List ParsedFile) :
    ∀ n i : Nat,
      ((blankHistoricalFrom hist n files).get? i).map (·.path) =
        (files.get? i).map (·.path) := by
  induction files with
  | nil =>
    intro n i
    rfl
  | cons f fs ih =>
    intro n i
    cases i with
    | zero =>
      simp only [blankHistoricalFrom, List.get?]
      cases hh : hist.contains n with
      | true => rfl
      | false => rfl
    | succ j =>
      simp only [blankHistoricalFrom, List.get?]
      exact ih (n + 1) j

theorem pathAt_blankHistorical (files : List ParsedFile) (hist : List Nat)
    (i : Nat) : pathAt (blankHistorical files hist) i = pathAt files i := by
  unfold pathAt blankHistorical
  rw [pathAt_blankHistoricalFrom hist files 0 i]

theorem driftSide_path_congr (f1 f2 : List ParsedFile)
    (h : ∀ i, pathAt f1 i = pathAt f2 i) (src other : TableRef)
    (col : Nat) (diff : List String) :
    driftSide f1 src other col diff = driftSide f2 src other col diff := by
  simp only [driftSide, h]

theorem driftColumn_path_congr (f1 f2 : List ParsedFile)
    (h : ∀ i, pathAt f1 i = pathAt f2 i) (a b : TableRef) (colA colB : Nat) :
    driftColumn f1 a b colA colB = driftColumn f2 a b colA colB := by
  simp only [driftColumn]
  rw [driftSide_path_congr f1 f2 h, driftSide_path_congr f1 f2 h]

theorem checkDrift_path_congr (f1 f2 : List ParsedFile)
    (h : ∀ i, pathAt f1 i = pathAt f2 i) (a b : TableRef)
    (st : List Diagnostic × List String) :
    checkDrift f1 a b st = checkDrift f2 a b st := by
  unfold checkDrift
  congr 1
  congr 1
  apply List.map_congr_left
  intro p hp
  cases hb : b.normalizedHeaders.findIdx? (· == p.2) with
  | none => rfl
  | some colB => exact driftColumn_path_congr f1 f2 h a b p.1 colB

theorem enumDriftCheck_blank (scope : String → Bool) (files : List ParsedFile)
    (hist : List Nat) :
    enumDriftCheck scope ⟨files, hist⟩ =
      enumDriftCheck scope ⟨blankHistorical files hist, []⟩ := by
  have hpath : ∀ i, pathAt files i = pathAt (blankHistorical files hist) i :=
    fun i => (pathAt_blankHistorical files hist i).symm
  unfold enumDriftCheck contributingPairs
  rw [tableRefsOf_blankHistorical scope files hist]
  congr 1
  apply List.foldl_ext
  intro st p hp
  exact checkDrift_path_congr files (blankHistorical files hist) hpath p.1 p.2 st

/-- C10: implicit historical-document exclusion.  The enum-drift checker
behaves exactly as if every historical document had no tables at all
(so historical tables contribute to no table match and no column-drift
finding), while the naming checker never consults the historical set:
its output is identical under any two historical configurations, so
occurrences from historical documents keep participating in both the
exact-variant and the fuzzy naming analyses. -/
theorem historical_files_scoping (scopeE scopeN : String → Bool)
    (ord : List String) (files : List ParsedFile) (hist h1 h2 : List Nat) :
    enumDriftCheck scopeE ⟨files, hist⟩ =
      enumDriftCheck scopeE ⟨blankHistorical files hist, []⟩ ∧
    namingCheck scopeN ord ⟨files, h1⟩ = namingCheck scopeN ord ⟨files, h2⟩ :=
  ⟨enumDriftCheck_blank scopeE files hist, rfl⟩

end SpectraLint
